import Mathlib

/-!
Verification of the FastBaumWelch forward-backward alignment kernels
(`NativeOp.py`): the log-domain arithmetic primitive `prob_add`, the base
(non-segmental) engine `FastBaumWelchOp`, and the segmental engine
`SegmentFastBaumWelchOp`.

Floating-point values are modelled exactly over the reals, extended with the
IEEE special values `+inf`, `-inf` and `NaN` that the kernels manipulate
explicitly (`CUDART_INF_F`, `isinf`, `isnan`).  CUDA kernels that scatter with
`atomic_prob_add` are determinised as folds over the thread index order; this
is sound because every cross-thread write goes through `prob_add`.
-/

set_option maxHeartbeats 1000000

/-- A float value: a finite real, `+inf`, `-inf`, or `NaN`. -/
inductive FVal where
  | fin (x : ℝ)
  | inf
  | ninf
  | nan

/-- C `isnan`. -/
def FVal.isNan : FVal → Bool
  | .nan => true
  | _ => false

/-- C `isinf` (true for both infinities). -/
def FVal.isInf : FVal → Bool
  | .inf => true
  | .ninf => true
  | _ => false

/-- IEEE float addition on special values. -/
def fadd : FVal → FVal → FVal
  | .fin x, .fin y => .fin (x + y)
  | .fin _, .inf => .inf
  | .fin _, .ninf => .ninf
  | .inf, .fin _ => .inf
  | .ninf, .fin _ => .ninf
  | .inf, .inf => .inf
  | .ninf, .ninf => .ninf
  | .inf, .ninf => .nan
  | .ninf, .inf => .nan
  | .nan, _ => .nan
  | _, .nan => .nan

/-- IEEE float negation. -/
def fneg : FVal → FVal
  | .fin x => .fin (-x)
  | .inf => .ninf
  | .ninf => .inf
  | .nan => .nan

/-- IEEE float subtraction. -/
def fsub (a b : FVal) : FVal := fadd a (fneg b)

/-- C `abs` on floats. -/
def fabs : FVal → FVal
  | .fin x => .fin |x|
  | .inf => .inf
  | .ninf => .inf
  | .nan => .nan

/-- C `exp` on floats, with exact real semantics on finite values. -/
noncomputable def fexp : FVal → FVal
  | .fin x => .fin (Real.exp x)
  | .inf => .inf
  | .ninf => .fin 0
  | .nan => .nan

open Classical in
/-- C `log1p` on floats, with exact real semantics on finite values. -/
noncomputable def flog1p : FVal → FVal
  | .fin x => if x < -1 then .nan else if x = -1 then .ninf else .fin (Real.log (1 + x))
  | .inf => .inf
  | .ninf => .nan
  | .nan => .nan

/-- CUDA `min` on floats (`fminf`: a NaN operand yields the other operand). -/
def fmin : FVal → FVal → FVal
  | .fin x, .fin y => .fin (min x y)
  | .fin x, .inf => .fin x
  | .inf, .fin y => .fin y
  | .inf, .inf => .inf
  | .ninf, .fin _ => .ninf
  | .fin _, .ninf => .ninf
  | .ninf, .ninf => .ninf
  | .ninf, .inf => .ninf
  | .inf, .ninf => .ninf
  | .nan, b => b
  | a, .nan => a

/-- Kernel `012_prob_add`: stable log-domain addition.
```
float diff = a - b;
if (isnan(diff)) return CUDART_INF_F;
else return -log1p(exp(-abs(diff))) + min(a, b);
``` -/
noncomputable def prob_add (a b : FVal) : FVal :=
  let diff := fsub a b
  if diff.isNan then FVal.inf
  else fadd (fneg (flog1p (fexp (fneg (fabs diff))))) (fmin a b)

/-- The exact value of the stable log-sum-exp rearrangement used by the kernel. -/
lemma neg_log1p_exp_min (x y : ℝ) :
    -Real.log (1 + Real.exp (-|x - y|)) + min x y
      = -Real.log (Real.exp (-x) + Real.exp (-y)) := by
  rcases le_total x y with h | h
  · have habs : |x - y| = y - x := by
      rw [abs_of_nonpos (by linarith)]; ring
    have hsum : Real.exp (-x) + Real.exp (-y)
        = Real.exp (-x) * (1 + Real.exp (-(y - x))) := by
      rw [mul_add, mul_one, ← Real.exp_add]; ring_nf
    rw [habs, min_eq_left h, hsum,
      Real.log_mul (Real.exp_ne_zero _) (by positivity), Real.log_exp]
    ring
  · have habs : |x - y| = x - y := abs_of_nonneg (by linarith)
    have hsum : Real.exp (-x) + Real.exp (-y)
        = Real.exp (-y) * (1 + Real.exp (-(x - y))) := by
      rw [mul_add, mul_one, ← Real.exp_add]; ring_nf
    rw [habs, min_eq_right h, hsum,
      Real.log_mul (Real.exp_ne_zero _) (by positivity), Real.log_exp]
    ring

lemma flog1p_exp_nonneg (x : ℝ) (hx : 0 ≤ x) :
    flog1p (FVal.fin x) = FVal.fin (Real.log (1 + x)) := by
  rw [flog1p]
  rw [if_neg (by linarith), if_neg (by linarith)]

/-- `prob_add` on two finite values computes the exact log-sum-exp. -/
lemma prob_add_fin_fin (x y : ℝ) :
    prob_add (FVal.fin x) (FVal.fin y)
      = FVal.fin (-Real.log (Real.exp (-x) + Real.exp (-y))) := by
  show (if (fsub (FVal.fin x) (FVal.fin y)).isNan then FVal.inf
    else fadd (fneg (flog1p (fexp (fneg (fabs (fsub (FVal.fin x) (FVal.fin y)))))))
      (fmin (FVal.fin x) (FVal.fin y))) = _
  rw [show fsub (FVal.fin x) (FVal.fin y) = FVal.fin (x + -y) from rfl]
  rw [if_neg (by simp [FVal.isNan])]
  rw [show fabs (FVal.fin (x + -y)) = FVal.fin |x + -y| from rfl]
  rw [show fneg (FVal.fin |x + -y|) = FVal.fin (-|x + -y|) from rfl]
  rw [show fexp (FVal.fin (-|x + -y|)) = FVal.fin (Real.exp (-|x + -y|)) from rfl]
  rw [flog1p_exp_nonneg _ (le_of_lt (Real.exp_pos _))]
  rw [show fmin (FVal.fin x) (FVal.fin y) = FVal.fin (min x y) from rfl]
  rw [show fneg (FVal.fin (Real.log (1 + Real.exp (-|x + -y|))))
      = FVal.fin (-Real.log (1 + Real.exp (-|x + -y|))) from rfl]
  rw [show fadd (FVal.fin (-Real.log (1 + Real.exp (-|x + -y|)))) (FVal.fin (min x y))
      = FVal.fin (-Real.log (1 + Real.exp (-|x + -y|)) + min x y) from rfl]
  rw [show x + -y = x - y by ring]
  rw [neg_log1p_exp_min]

/-- `+inf` is a right identity of `prob_add` on non-NaN values. -/
lemma prob_add_inf_right (a : FVal) (ha : a.isNan = false) :
    prob_add a FVal.inf = a := by
  cases a with
  | fin x =>
    show (if (fsub (FVal.fin x) FVal.inf).isNan then FVal.inf else _) = _
    rw [show fsub (FVal.fin x) FVal.inf = FVal.ninf from rfl]
    rw [if_neg (by simp [FVal.isNan])]
    show fadd (fneg (flog1p (fexp (fneg (fabs FVal.ninf))))) (fmin (FVal.fin x) FVal.inf) = _
    rw [show fexp (fneg (fabs FVal.ninf)) = FVal.fin 0 from rfl]
    rw [flog1p_exp_nonneg 0 le_rfl]
    show FVal.fin (-Real.log (1 + 0) + x) = _
    norm_num
  | inf => rfl
  | ninf =>
    show (if (fsub FVal.ninf FVal.inf).isNan then FVal.inf else _) = _
    rw [show fsub FVal.ninf FVal.inf = FVal.ninf from rfl]
    rw [if_neg (by simp [FVal.isNan])]
    show fadd (fneg (flog1p (fexp (fneg (fabs FVal.ninf))))) (fmin FVal.ninf FVal.inf) = _
    rw [show fexp (fneg (fabs FVal.ninf)) = FVal.fin 0 from rfl]
    rw [flog1p_exp_nonneg 0 le_rfl]
    show fadd (FVal.fin (-Real.log (1 + 0))) FVal.ninf = _
    rfl
  | nan => simp [FVal.isNan] at ha

/-- `+inf` is a left identity of `prob_add` on non-NaN values. -/
lemma prob_add_inf_left (b : FVal) (hb : b.isNan = false) :
    prob_add FVal.inf b = b := by
  cases b with
  | fin y =>
    show (if (fsub FVal.inf (FVal.fin y)).isNan then FVal.inf else _) = _
    rw [show fsub FVal.inf (FVal.fin y) = FVal.inf from rfl]
    rw [if_neg (by simp [FVal.isNan])]
    show fadd (fneg (flog1p (fexp (fneg (fabs FVal.inf))))) (fmin FVal.inf (FVal.fin y)) = _
    rw [show fexp (fneg (fabs FVal.inf)) = FVal.fin 0 from rfl]
    rw [flog1p_exp_nonneg 0 le_rfl]
    show FVal.fin (-Real.log (1 + 0) + y) = _
    norm_num
  | inf => rfl
  | ninf =>
    show (if (fsub FVal.inf FVal.ninf).isNan then FVal.inf else _) = _
    rw [show fsub FVal.inf FVal.ninf = FVal.inf from rfl]
    rw [if_neg (by simp [FVal.isNan])]
    show fadd (fneg (flog1p (fexp (fneg (fabs FVal.inf))))) (fmin FVal.inf FVal.ninf) = _
    rw [show fexp (fneg (fabs FVal.inf)) = FVal.fin 0 from rfl]
    rw [flog1p_exp_nonneg 0 le_rfl]
    show fadd (FVal.fin (-Real.log (1 + 0))) FVal.ninf = _
    rfl
  | nan => simp [FVal.isNan] at hb

/-- `prob_add` is commutative (on all float values, in particular finite ones). -/
lemma prob_add_comm (a b : FVal) : prob_add a b = prob_add b a := by
  cases a with
  | fin x =>
    cases b with
    | fin y => rw [prob_add_fin_fin, prob_add_fin_fin, add_comm (Real.exp (-x))]
    | inf => rfl
    | ninf => rfl
    | nan => rfl
  | inf => cases b <;> rfl
  | ninf => cases b <;> rfl
  | nan => cases b <;> rfl

/-- Auxiliary: diff being NaN forces the result `+inf`. -/
lemma prob_add_of_nan_diff (a b : FVal) (h : (fsub a b).isNan = true) :
    prob_add a b = FVal.inf := by
  unfold prob_add
  simp only [h, if_true]

/-- `prob_add a a` never produces NaN. -/
lemma prob_add_self_not_nan (a : FVal) : (prob_add a a).isNan = false := by
  cases a with
  | fin x =>
    rw [show prob_add (FVal.fin x) (FVal.fin x)
        = FVal.fin (-Real.log (Real.exp (-x) + Real.exp (-x))) from prob_add_fin_fin x x]
    rfl
  | inf => rfl
  | ninf => rfl
  | nan => rfl

/-- A score buffer value is well-formed when it is finite or `+inf`
(probability `exp (-x)` or `0`); the sweeps only ever produce such values. -/
def Good : FVal → Prop := fun a => a = FVal.inf ∨ ∃ x, a = FVal.fin x

/-- Probability-domain interpretation of a well-formed score. -/
noncomputable def toProb : FVal → ℝ
  | .fin x => Real.exp (-x)
  | _ => 0

lemma good_inf : Good FVal.inf := Or.inl rfl

lemma good_fin (x : ℝ) : Good (FVal.fin x) := Or.inr ⟨x, rfl⟩

lemma Good.not_nan {a : FVal} (h : Good a) : a.isNan = false := by
  rcases h with h | ⟨x, h⟩ <;> subst h <;> rfl

lemma Good.not_ninf {a : FVal} (h : Good a) : a ≠ FVal.ninf := by
  rcases h with h | ⟨x, h⟩ <;> subst h <;> intro hc <;> cases hc

lemma Good.isInf_iff {a : FVal} (h : Good a) : a.isInf = true ↔ a = FVal.inf := by
  rcases h with h | ⟨x, h⟩ <;> subst h <;> simp [FVal.isInf]

lemma good_toProb_nonneg {a : FVal} (h : Good a) : 0 ≤ toProb a := by
  rcases h with h | ⟨x, h⟩ <;> subst h
  · exact le_rfl
  · exact le_of_lt (Real.exp_pos _)

/-- `toProb` is injective on well-formed scores. -/
lemma good_toProb_inj {a b : FVal} (ha : Good a) (hb : Good b)
    (h : toProb a = toProb b) : a = b := by
  rcases ha with ha | ⟨x, ha⟩ <;> rcases hb with hb | ⟨y, hb⟩ <;> subst ha <;> subst hb
  · rfl
  · exact absurd h.symm (ne_of_gt (Real.exp_pos _))
  · exact absurd h (ne_of_gt (Real.exp_pos _))
  · have h' : Real.exp (-x) = Real.exp (-y) := h
    rw [Real.exp_eq_exp] at h'
    rw [neg_inj.mp h']

/-- On well-formed scores, `prob_add` is exactly addition of probabilities. -/
lemma prob_add_good {a b : FVal} (ha : Good a) (hb : Good b) :
    Good (prob_add a b) ∧ toProb (prob_add a b) = toProb a + toProb b := by
  rcases ha with ha | ⟨x, ha⟩ <;> rcases hb with hb | ⟨y, hb⟩ <;> subst ha <;> subst hb
  · refine ⟨good_inf, ?_⟩
    rw [show prob_add FVal.inf FVal.inf = FVal.inf from rfl]
    norm_num [toProb]
  · rw [prob_add_inf_left _ (by rfl)]
    refine ⟨good_fin y, ?_⟩
    norm_num [toProb]
  · rw [prob_add_inf_right _ (by rfl)]
    refine ⟨good_fin x, ?_⟩
    norm_num [toProb]
  · rw [prob_add_fin_fin]
    refine ⟨good_fin _, ?_⟩
    show Real.exp (- -Real.log (Real.exp (-x) + Real.exp (-y))) = _
    rw [neg_neg, Real.exp_log (by positivity)]
    rfl

/-- Generic invariant preservation along a `List.foldl`. -/
lemma foldl_preserve {α β : Type} (P : α → Prop) (f : α → β → α) (l : List β)
    (init : α) (h0 : P init) (hstep : ∀ a b, b ∈ l → P a → P (f a b)) :
    P (List.foldl f init l) := by
  induction l generalizing init with
  | nil => exact h0
  | cons c l ih =>
    exact ih (f init c) (hstep init c (by simp) h0)
      (fun a b hb => hstep a b (by simp [hb]))

/-- Generic pairwise simulation between two `List.foldl`s over the same list. -/
lemma foldl_rel {α β γ : Type} (R : α → β → Prop) (f : α → γ → α) (g : β → γ → β)
    (l : List γ) (a : α) (b : β) (hab : R a b)
    (hstep : ∀ x y c, c ∈ l → R x y → R (f x c) (g y c)) :
    R (List.foldl f a l) (List.foldl g b l) := by
  induction l generalizing a b with
  | nil => exact hab
  | cons c l ih =>
    exact ih (f a c) (g b c) (hstep a b c (by simp) hab)
      (fun x y d hd => hstep x y d (by simp [hd]))

open Classical in
/-- Characterisation of a fold of guarded constant writes through
`Function.update`: the written cells hold the constant, other cells keep the
initial buffer's value. -/
lemma foldl_update_char {β : Type} (g : ℕ → ℕ) (w : β) (P : ℕ → Prop)
    (f : (ℕ → β) → ℕ → (ℕ → β))
    (hf : ∀ buf b, f buf b = if P b then Function.update buf (g b) w else buf)
    (l : List ℕ) (buf : ℕ → β) (s : ℕ) :
    List.foldl f buf l s = if ∃ b ∈ l, P b ∧ g b = s then w else buf s := by
  induction l generalizing buf with
  | nil => simp
  | cons c l ih =>
    rw [List.foldl_cons, ih]
    by_cases hl : ∃ b ∈ l, P b ∧ g b = s
    · rw [if_pos hl, if_pos (by rcases hl with ⟨b, hb, h⟩; exact ⟨b, by simp [hb], h⟩)]
    · rw [if_neg hl, hf]
      by_cases hc : P c
      · rw [if_pos hc]
        by_cases hgc : g c = s
        · rw [if_pos ⟨c, by simp, hc, hgc⟩, hgc, Function.update_same]
        · have hno : ¬∃ b ∈ c :: l, P b ∧ g b = s := by
            rintro ⟨b, hb, hPb, hgb⟩
            rcases List.mem_cons.mp hb with h | h
            · exact hgc (h ▸ hgb)
            · exact hl ⟨b, h, hPb, hgb⟩
          rw [Function.update_noteq (fun h => hgc h.symm), if_neg hno]
      · have hno : ¬∃ b ∈ c :: l, P b ∧ g b = s := by
          rintro ⟨b, hb, hPb, hgb⟩
          rcases List.mem_cons.mp hb with h | h
          · exact hc (h ▸ hPb)
          · exact hl ⟨b, h, hPb, hgb⟩
        rw [if_neg hc, if_neg hno]

/-- A fold of `prob_add`-accumulations over well-formed contributions is
well-formed and adds the probabilities. -/
lemma foldl_prob_add (v : ℕ → FVal) (l : List ℕ) (acc : FVal)
    (hacc : Good acc) (hv : ∀ e ∈ l, Good (v e)) :
    Good (List.foldl (fun a e => prob_add a (v e)) acc l) ∧
      toProb (List.foldl (fun a e => prob_add a (v e)) acc l)
        = toProb acc + (l.map (fun e => toProb (v e))).sum := by
  induction l generalizing acc with
  | nil => exact ⟨hacc, by simp⟩
  | cons c l ih =>
    have hc := prob_add_good hacc (hv c (by simp))
    have := ih (prob_add acc (v c)) hc.1 (fun e he => hv e (by simp [he]))
    refine ⟨this.1, ?_⟩
    rw [List.foldl_cons, this.2, hc.2, List.map_cons, List.sum_cons]
    ring

/-- Inputs of the base `FastBaumWelchOp` (`c_fw_code`).  The contiguous device
tensors `am_scores` (time, seq, emission) and `index` (time, seq) are modelled
as flat address-indexed functions, exactly as the kernels address them. -/
structure FBW where
  nFrames : ℕ
  nSeqs : ℕ
  nEmissions : ℕ
  nStates : ℕ
  nEdges : ℕ
  amFlat : ℕ → ℝ
  maskFlat : ℕ → ℝ
  edgeFrom : ℕ → ℕ
  edgeTo : ℕ → ℕ
  edgeEmission : ℕ → ℕ
  edgeSeq : ℕ → ℕ
  edgeWeight : ℕ → ℝ
  startState : ℕ → ℕ
  endState : ℕ → ℕ

/-- `am_scores[t][seq][emission]`: address `t * frame_stride + seq *
sequence_stride + emission` with the contiguous strides of `c_fw_code`. -/
def FBW.amAt (inp : FBW) (t s em : ℕ) : ℝ :=
  inp.amFlat (t * (inp.nSeqs * inp.nEmissions) + s * inp.nEmissions + em)

/-- `index[t * index_stride + seq]` with `index_stride = n_seqs`. -/
def FBW.maskAt (inp : FBW) (t s : ℕ) : ℝ :=
  inp.maskFlat (t * inp.nSeqs + s)

/-- One thread of kernel `001_set_start_states`:
`states[start_states[idx]] = 0.0`. -/
def setStartStep (inp : FBW) (states : ℕ → FVal) (b : ℕ) : ℕ → FVal :=
  Function.update states (inp.startState b) (FVal.fin 0)

/-- Kernel `set_start_states`, one thread per sequence. -/
def setStartStates (inp : FBW) (states : ℕ → FVal) : ℕ → FVal :=
  (List.range inp.nSeqs).foldl (setStartStep inp) states

/-- `prev_val + edge_weight + am_scores[sequence_idx * num_emissions +
emission_idx]` of kernel `101_next_frame` at frame `t`. -/
def edgeVal (inp : FBW) (v : FVal) (t e : ℕ) : FVal :=
  fadd (fadd v (FVal.fin (inp.edgeWeight e)))
    (FVal.fin (inp.amAt t (inp.edgeSeq e) (inp.edgeEmission e)))

/-- State-buffer effect of one forward thread of `101_next_frame`
(`fwd = true`): skip if `isinf(prev_frame[from])`, else
`atomic_prob_add(next_frame + to, val)`. -/
noncomputable def fwdStep (inp : FBW) (t : ℕ) (prev : ℕ → FVal) (next : ℕ → FVal) (e : ℕ) :
    ℕ → FVal :=
  if (prev (inp.edgeFrom e)).isInf then next
  else Function.update next (inp.edgeTo e)
    (prob_add (next (inp.edgeTo e)) (edgeVal inp (prev (inp.edgeFrom e)) t e))

/-- The next-frame state buffer of a forward sweep step: freshly filled with
`+inf`, then all edge threads accumulate. -/
noncomputable def fwdNextState (inp : FBW) (prev : ℕ → FVal) (t : ℕ) : ℕ → FVal :=
  (List.range inp.nEdges).foldl (fwdStep inp t prev) (fun _ => FVal.inf)

/-- Forward state buffer before processing frame `t` (the `prev` buffer of
iteration `t` of the fwd pass): filled with `+inf`, start states set to `0`,
then propagated one frame at a time. -/
noncomputable def fwdState (inp : FBW) : ℕ → ℕ → FVal
  | 0 => setStartStates inp (fun _ => FVal.inf)
  | t + 1 => fwdNextState inp (fwdState inp t) t

/-- `edge_buffer[t][e]` after the forward sweep: initialised to `0.0`, a
forward thread either stores `CUDART_INF_F` (unreachable source) or adds
`val`. -/
noncomputable def edgeFwdRow (inp : FBW) (t e : ℕ) : FVal :=
  if (fwdState inp t (inp.edgeFrom e)).isInf then FVal.inf
  else fadd (FVal.fin 0) (edgeVal inp (fwdState inp t (inp.edgeFrom e)) t e)

/-- The seeding condition of kernel `100_init_bwd_state_buffer` at frame `f`
for sequence `b`: `index[f][b] == 1.0 && (f == max_t || index[f+1][b] == 0.0)`
with `max_t = n_frames - 1`. -/
def isLastLive (inp : FBW) (f b : ℕ) : Prop :=
  inp.maskAt f b = 1 ∧ (f = inp.nFrames - 1 ∨ inp.maskAt (f + 1) b = 0)

open Classical in
/-- One thread of `init_bwd_state_buffer`: conditionally
`states[end_states[idx]] = 0.0`. -/
noncomputable def initBwdStep (inp : FBW) (f : ℕ) (states : ℕ → FVal) (b : ℕ) :
    ℕ → FVal :=
  if isLastLive inp f b then Function.update states (inp.endState b) (FVal.fin 0)
  else states

/-- Kernel `init_bwd_state_buffer` at frame `f`, one thread per sequence. -/
noncomputable def initBwd (inp : FBW) (f : ℕ) (states : ℕ → FVal) : ℕ → FVal :=
  (List.range inp.nSeqs).foldl (initBwdStep inp f) states

/-- State-buffer effect of one backward thread of `101_next_frame`
(`fwd = false`; the kernel is launched with `from_buffer = d_to`,
`to_buffer = d_from`). -/
noncomputable def bwdStep (inp : FBW) (f : ℕ) (prev : ℕ → FVal) (next : ℕ → FVal) (e : ℕ) :
    ℕ → FVal :=
  if (prev (inp.edgeTo e)).isInf then next
  else Function.update next (inp.edgeFrom e)
    (prob_add (next (inp.edgeFrom e)) (edgeVal inp (prev (inp.edgeTo e)) f e))

/-- The next-frame state buffer of a backward sweep step. -/
noncomputable def bwdNextState (inp : FBW) (prev : ℕ → FVal) (f : ℕ) : ℕ → FVal :=
  (List.range inp.nEdges).foldl (bwdStep inp f prev) (fun _ => FVal.inf)

/-- The (pre-`init_bwd_state_buffer`) backward state buffer after `j`
iterations of the bwd loop `for (t = n_frames; t > 0; t--)`; iteration `j + 1`
has loop variable `t = n_frames - j` and processes frame `t - 1`. -/
noncomputable def bwdAfter (inp : FBW) : ℕ → ℕ → FVal
  | 0 => fun _ => FVal.inf
  | j + 1 =>
    bwdNextState inp
      (initBwd inp (inp.nFrames - j - 1) (bwdAfter inp j)) (inp.nFrames - j - 1)

/-- The backward score at time `u` (`1 ≤ u ≤ n_frames`): the `prev` buffer read
by the bwd `next_frame` call processing frame `u - 1`, after
`init_bwd_state_buffer` has seeded it. -/
noncomputable def bwdScore (inp : FBW) (u : ℕ) : ℕ → FVal :=
  initBwd inp (u - 1) (bwdAfter inp (inp.nFrames - u))

/-- `edge_buffer[t][e]` after both sweeps: the backward thread stores
`CUDART_INF_F` if `isinf(prev_frame[to])`, else adds `prev_frame[to]`. -/
noncomputable def finalEdge (inp : FBW) (t e : ℕ) : FVal :=
  if (bwdScore inp (t + 1) (inp.edgeTo e)).isInf then FVal.inf
  else fadd (edgeFwdRow inp t e) (bwdScore inp (t + 1) (inp.edgeTo e))

/-- The shared-memory accumulator `sum[s]` of kernel `102_normalize` at frame
`t`: log-sum-exp of `edge_buffer[t][e]` over the edges of sequence `s`, in
edge order, starting from `CUDART_INF_F`. -/
noncomputable def frameSum (inp : FBW) (t s : ℕ) : FVal :=
  (List.range inp.nEdges).foldl
    (fun acc e => if inp.edgeSeq e = s then prob_add acc (finalEdge inp t e) else acc)
    FVal.inf

/-- `sum_output[t][s]` as written by `normalize`: `0.0` for an empty (all
`+inf`) frame, else `sum[s]`. -/
noncomputable def sumOut (inp : FBW) (t s : ℕ) : FVal :=
  if (frameSum inp t s).isInf then FVal.fin 0 else frameSum inp t s

/-- `edge_buffer[t][e]` after `normalize` subtracts `sum[s]` (the raw shared
accumulator, not the clamped output). -/
noncomputable def normBuffer (inp : FBW) (t e : ℕ) : FVal :=
  fsub (finalEdge inp t e) (frameSum inp t (inp.edgeSeq e))

/-- `out[t][s][em]` after kernel `103_compute_result`: initialised to `+inf`,
then every edge thread of frame `t` with this sequence and emission label
`atomic_prob_add`s its normalised score, in thread order. -/
noncomputable def output (inp : FBW) (t s em : ℕ) : FVal :=
  (List.range inp.nEdges).foldl
    (fun acc e =>
      if inp.edgeSeq e = s ∧ inp.edgeEmission e = em then
        prob_add acc (normBuffer inp t e)
      else acc)
    FVal.inf

/-- The log-sum-exp over all emission labels of `output[t, s, :]` (the
quantity the spec's posterior-normalisation property is about). -/
noncomputable def outputLse (inp : FBW) (t s : ℕ) : FVal :=
  (List.range inp.nEmissions).foldl
    (fun acc em => prob_add acc (output inp t s em)) FVal.inf

lemma good_update {buf : ℕ → FVal} (h : ∀ st, Good (buf st)) {v : FVal}
    (hv : Good v) (i : ℕ) : ∀ st, Good (Function.update buf i v st) := by
  intro st
  by_cases hst : st = i
  · subst hst; rw [Function.update_same]; exact hv
  · rw [Function.update_noteq hst]; exact h st

lemma Good.fin_of_not_isInf {a : FVal} (ha : Good a) (h : a.isInf = false) :
    ∃ x, a = FVal.fin x := by
  rcases ha with ha | ha
  · subst ha; cases h
  · exact ha

lemma edgeVal_fin (inp : FBW) (x : ℝ) (t e : ℕ) :
    edgeVal inp (FVal.fin x) t e
      = FVal.fin (x + inp.edgeWeight e + inp.amAt t (inp.edgeSeq e) (inp.edgeEmission e)) :=
  rfl

lemma setStartStates_good (inp : FBW) {buf : ℕ → FVal} (h : ∀ st, Good (buf st)) :
    ∀ st, Good (setStartStates inp buf st) := by
  refine foldl_preserve (fun b : ℕ → FVal => ∀ st, Good (b st)) _ _ _ h ?_
  intro acc b _ hacc
  exact good_update hacc (good_fin 0) _

lemma fwdState_good (inp : FBW) (t : ℕ) : ∀ st, Good (fwdState inp t st) := by
  induction t with
  | zero => exact setStartStates_good inp (fun _ => good_inf)
  | succ t ih =>
    refine foldl_preserve (fun b : ℕ → FVal => ∀ st, Good (b st)) _ _ _ (fun _ => good_inf) ?_
    intro acc e _ hacc
    unfold fwdStep
    by_cases hinf : (fwdState inp t (inp.edgeFrom e)).isInf
    · rw [if_pos hinf]; exact hacc
    · rw [if_neg hinf]
      obtain ⟨x, hx⟩ := (ih (inp.edgeFrom e)).fin_of_not_isInf
        (Bool.not_eq_true _ ▸ hinf)
      rw [hx, edgeVal_fin]
      exact good_update hacc (prob_add_good (hacc _) (good_fin _)).1 _

lemma initBwd_good (inp : FBW) (f : ℕ) {buf : ℕ → FVal}
    (h : ∀ st, Good (buf st)) : ∀ st, Good (initBwd inp f buf st) := by
  refine foldl_preserve (fun b : ℕ → FVal => ∀ st, Good (b st)) _ _ _ h ?_
  intro acc b _ hacc
  unfold initBwdStep
  by_cases hc : isLastLive inp f b
  · rw [if_pos hc]; exact good_update hacc (good_fin 0) _
  · rw [if_neg hc]; exact hacc

lemma bwdNextState_good (inp : FBW) {prev : ℕ → FVal}
    (hprev : ∀ st, Good (prev st)) (f : ℕ) :
    ∀ st, Good (bwdNextState inp prev f st) := by
  refine foldl_preserve (fun b : ℕ → FVal => ∀ st, Good (b st)) _ _ _ (fun _ => good_inf) ?_
  intro acc e _ hacc
  unfold bwdStep
  by_cases hinf : (prev (inp.edgeTo e)).isInf
  · rw [if_pos hinf]; exact hacc
  · rw [if_neg hinf]
    obtain ⟨x, hx⟩ := (hprev _).fin_of_not_isInf (Bool.not_eq_true _ ▸ hinf)
    rw [hx, edgeVal_fin]
    exact good_update hacc (prob_add_good (hacc _) (good_fin _)).1 _

lemma bwdAfter_good (inp : FBW) (j : ℕ) : ∀ st, Good (bwdAfter inp j st) := by
  induction j with
  | zero => exact fun _ => good_inf
  | succ j ih => exact bwdNextState_good inp (initBwd_good inp _ ih) _

lemma bwdScore_good (inp : FBW) (u : ℕ) : ∀ st, Good (bwdScore inp u st) :=
  initBwd_good inp _ (bwdAfter_good inp _)

lemma edgeFwdRow_good (inp : FBW) (t e : ℕ) : Good (edgeFwdRow inp t e) := by
  unfold edgeFwdRow
  by_cases hinf : (fwdState inp t (inp.edgeFrom e)).isInf
  · rw [if_pos hinf]; exact good_inf
  · rw [if_neg hinf]
    obtain ⟨x, hx⟩ := (fwdState_good inp t _).fin_of_not_isInf
      (Bool.not_eq_true _ ▸ hinf)
    rw [hx, edgeVal_fin]
    exact good_fin _

lemma finalEdge_good (inp : FBW) (t e : ℕ) : Good (finalEdge inp t e) := by
  unfold finalEdge
  by_cases hinf : (bwdScore inp (t + 1) (inp.edgeTo e)).isInf
  · rw [if_pos hinf]; exact good_inf
  · rw [if_neg hinf]
    obtain ⟨x, hx⟩ := (bwdScore_good inp (t + 1) _).fin_of_not_isInf
      (Bool.not_eq_true _ ▸ hinf)
    rcases edgeFwdRow_good inp t e with h | ⟨y, h⟩ <;> rw [h, hx]
    · exact good_inf
    · exact good_fin _

lemma frameSum_good (inp : FBW) (t s : ℕ) : Good (frameSum inp t s) := by
  refine foldl_preserve Good _ _ _ good_inf ?_
  intro acc e _ hacc
  by_cases hc : inp.edgeSeq e = s
  · rw [if_pos hc]; exact (prob_add_good hacc (finalEdge_good inp t e)).1
  · rw [if_neg hc]; exact hacc

/-- C1: after the forward sweep (which stores the forward value into the edge
buffer, on top of its `0.0` initialisation) and the backward sweep (which adds
the backward value of the target state), for every time step `t` and edge `e`
reachable in both directions, `edge_buffer[t][e]` equals
`forward_score(from(e), t) + weight(e) + emission_score(e, t) +
backward_score(to(e), t+1)`. -/
theorem C1_edge_buffer_total_path_cost (inp : FBW) (t e : ℕ) (a b : ℝ)
    (ht : t < inp.nFrames) (he : e < inp.nEdges)
    (hf : fwdState inp t (inp.edgeFrom e) = FVal.fin a)
    (hb : bwdScore inp (t + 1) (inp.edgeTo e) = FVal.fin b) :
    finalEdge inp t e
      = FVal.fin (a + inp.edgeWeight e
          + inp.amAt t (inp.edgeSeq e) (inp.edgeEmission e) + b) := by
  unfold finalEdge edgeFwdRow
  rw [hb, hf, if_neg (by simp [FVal.isInf]), if_neg (by simp [FVal.isInf]), edgeVal_fin]
  show FVal.fin (0 + (a + inp.edgeWeight e
    + inp.amAt t (inp.edgeSeq e) (inp.edgeEmission e)) + b) = _
  norm_num

/-- Concrete base-engine input: one frame, one sequence, two states, a single
edge `0 → 1` with weight `0`, all am scores `0`, full validity mask. -/
def exC1 : FBW where
  nFrames := 1
  nSeqs := 1
  nEmissions := 1
  nStates := 2
  nEdges := 1
  amFlat := fun _ => 0
  maskFlat := fun _ => 1
  edgeFrom := fun _ => 0
  edgeTo := fun _ => 1
  edgeEmission := fun _ => 0
  edgeSeq := fun _ => 0
  edgeWeight := fun _ => 0
  startState := fun _ => 0
  endState := fun _ => 1

lemma exC1_fwd : fwdState exC1 0 0 = FVal.fin 0 := rfl

lemma exC1_bwd : bwdScore exC1 1 1 = FVal.fin 0 := by
  show initBwd exC1 0 (bwdAfter exC1 0) 1 = FVal.fin 0
  unfold initBwd
  rw [show List.range exC1.nSeqs = [0] from rfl, List.foldl_cons, List.foldl_nil]
  unfold initBwdStep
  rw [if_pos ⟨rfl, Or.inl rfl⟩]
  rfl

theorem C1_witness :
    0 < exC1.nFrames ∧ 0 < exC1.nEdges ∧
    fwdState exC1 0 (exC1.edgeFrom 0) = FVal.fin 0 ∧
    bwdScore exC1 1 (exC1.edgeTo 0) = FVal.fin 0 ∧
    finalEdge exC1 0 0
      = FVal.fin (0 + exC1.edgeWeight 0
          + exC1.amAt 0 (exC1.edgeSeq 0) (exC1.edgeEmission 0) + 0) :=
  ⟨Nat.one_pos, Nat.one_pos, exC1_fwd, exC1_bwd,
    C1_edge_buffer_total_path_cost exC1 0 0 0 0 Nat.one_pos Nat.one_pos
      exC1_fwd exC1_bwd⟩

open Classical in
/-- C5: before the backward sweep the state buffer is reset to `+inf`
everywhere, and `init_bwd_state_buffer` at frame `f` sets exactly the
end-state entries of sequences whose last live frame is `f` (validity mask `1`
at `f`, and `f` is the global last frame or the mask is `0` at `f+1`) to their
end weight `0`; every other entry is left untouched. -/
theorem C5_backward_init_characterisation (inp : FBW) (f s : ℕ)
    (states : ℕ → FVal) :
    bwdAfter inp 0 = (fun _ => FVal.inf) ∧
    initBwd inp f states s
      = if ∃ b ∈ List.range inp.nSeqs, isLastLive inp f b ∧ inp.endState b = s
        then FVal.fin 0 else states s := by
  refine ⟨rfl, ?_⟩
  exact foldl_update_char inp.endState (FVal.fin 0) (isLastLive inp f)
    (initBwdStep inp f) (fun _ _ => rfl) (List.range inp.nSeqs) states s

open Classical in
/-- The initial forward state buffer as claim C6 words it: `+inf` at every
state except that each LIVE sequence's start state holds `0` (liveness of
sequence `b` read from the validity mask at frame `0`). -/
noncomputable def claimedInitC6 (inp : FBW) : ℕ → FVal := fun s =>
  if ∃ b ∈ List.range inp.nSeqs, inp.maskAt 0 b = 1 ∧ inp.startState b = s
  then FVal.fin 0 else FVal.inf

/-- Concrete input refuting C6's liveness qualifier: two sequences, the second
one fully masked out (mask `0` at its frame-0 cell), with distinct start
states `0` and `1`. -/
def exC6 : FBW where
  nFrames := 1
  nSeqs := 2
  nEmissions := 1
  nStates := 3
  nEdges := 1
  amFlat := fun _ => 0
  maskFlat := fun a => if a = 1 then 0 else 1
  edgeFrom := fun _ => 0
  edgeTo := fun _ => 2
  edgeEmission := fun _ => 0
  edgeSeq := fun _ => 0
  edgeWeight := fun _ => 0
  startState := fun b => b
  endState := fun _ => 2

/-- C6 as stated is false: `set_start_states` writes `0.0` for every sequence
unconditionally, so the dead sequence 1's start state also holds `0`, while
the claim's buffer holds `+inf` there. -/
theorem C6_counterexample :
    exC6.maskAt 0 1 = 0 ∧ fwdState exC6 0 1 = FVal.fin 0 ∧
      claimedInitC6 exC6 1 = FVal.inf := by
  refine ⟨rfl, rfl, ?_⟩
  unfold claimedInitC6
  rw [if_neg]
  rintro ⟨b, hb, hmask, hstart⟩
  rw [show List.range exC6.nSeqs = [0, 1] from rfl] at hb
  simp only [List.mem_cons, List.not_mem_nil, or_false] at hb
  rcases hb with hb | hb
  · subst hb
    have h01 : (0 : ℕ) = 1 := hstart
    norm_num at h01
  · subst hb
    have h01 : (0 : ℝ) = 1 := hmask
    norm_num at h01

open Classical in
/-- C6 amended: at the start of the forward sweep every sequence's start state
(live or not) holds `0` and every other state holds `+inf`; during the sweep
an edge whose source holds `+inf` stores `+inf` (no finite value) into its
edge-buffer cell and accumulates nothing into the next-frame state buffer. -/
theorem C6_amended_forward_init_and_skip (inp : FBW) (t e s : ℕ)
    (next : ℕ → FVal)
    (hinf : (fwdState inp t (inp.edgeFrom e)).isInf = true) :
    (fwdState inp 0 s
      = if ∃ b ∈ List.range inp.nSeqs, inp.startState b = s
        then FVal.fin 0 else FVal.inf) ∧
    edgeFwdRow inp t e = FVal.inf ∧
    fwdStep inp t (fwdState inp t) next e = next := by
  refine ⟨?_, ?_, ?_⟩
  · show setStartStates inp (fun _ => FVal.inf) s = _
    unfold setStartStates
    rw [foldl_update_char inp.startState (FVal.fin 0) (fun _ => True)
      (setStartStep inp) (fun buf b => by rw [if_pos trivial]; rfl)
      (List.range inp.nSeqs) _ s]
    simp only [true_and]
  · unfold edgeFwdRow
    rw [if_pos hinf]
  · unfold fwdStep
    rw [if_pos hinf]

/-- A guarded `prob_add` fold over `List.range n` (the shape of the
`normalize` / `compute_result` accumulation loops) is well-formed and computes
the probability-domain sum of its contributions. -/
lemma foldl_guard_prob_add (p : ℕ → Prop) [DecidablePred p] (v : ℕ → FVal)
    (n : ℕ) (hv : ∀ e, e < n → p e → Good (v e)) :
    Good (List.foldl (fun acc e => if p e then prob_add acc (v e) else acc)
        FVal.inf (List.range n)) ∧
      toProb (List.foldl (fun acc e => if p e then prob_add acc (v e) else acc)
        FVal.inf (List.range n))
        = ∑ e ∈ Finset.filter p (Finset.range n), toProb (v e) := by
  induction n with
  | zero => exact ⟨good_inf, by simp [toProb]⟩
  | succ n ih =>
    obtain ⟨ihg, ihs⟩ := ih (fun e he hp => hv e (Nat.lt_succ_of_lt he) hp)
    rw [List.range_succ, List.foldl_append, List.foldl_cons, List.foldl_nil]
    rw [Finset.range_succ, Finset.filter_insert]
    by_cases hp : p n
    · rw [if_pos hp, if_pos hp,
        Finset.sum_insert (by simp)]
      obtain ⟨hg, hs⟩ := prob_add_good ihg (hv n (Nat.lt_succ_self n) hp)
      exact ⟨hg, by rw [hs, ihs]; ring⟩
    · rw [if_neg hp, if_neg hp]
      exact ⟨ihg, ihs⟩

lemma list_range_map_sum (f : ℕ → ℝ) (n : ℕ) :
    ((List.range n).map f).sum = ∑ i ∈ Finset.range n, f i := by
  induction n with
  | zero => simp
  | succ n ih =>
    rw [List.range_succ, List.map_append, List.sum_append,
      Finset.sum_range_succ, ih]
    simp

/-- Subtracting a finite normalisation from a well-formed score multiplies its
probability by `exp c`. -/
lemma toProb_fsub_fin {a : FVal} (ha : Good a) (c : ℝ) :
    Good (fsub a (FVal.fin c)) ∧
      toProb (fsub a (FVal.fin c)) = toProb a * Real.exp c := by
  rcases ha with ha | ⟨x, ha⟩ <;> subst ha
  · exact ⟨good_inf, by simp [fsub, fadd, fneg, toProb]⟩
  · refine ⟨good_fin _, ?_⟩
    show Real.exp (-(x + -c)) = Real.exp (-x) * Real.exp c
    rw [← Real.exp_add]
    ring_nf

lemma frameSum_toProb (inp : FBW) (t s : ℕ) :
    toProb (frameSum inp t s)
      = ∑ e ∈ Finset.filter (fun e => inp.edgeSeq e = s) (Finset.range inp.nEdges),
          toProb (finalEdge inp t e) :=
  (foldl_guard_prob_add (fun e => inp.edgeSeq e = s) (finalEdge inp t)
    inp.nEdges (fun e _ _ => finalEdge_good inp t e)).2

/-- If a frame's per-sequence log-sum-exp is `+inf`, every edge of that
sequence holds `+inf` in the edge buffer at that frame. -/
lemma finalEdge_inf_of_frameSum_inf (inp : FBW) (t s e : ℕ)
    (hsum : frameSum inp t s = FVal.inf)
    (he : e < inp.nEdges) (hseq : inp.edgeSeq e = s) :
    finalEdge inp t e = FVal.inf := by
  have hz : ∑ x ∈ Finset.filter (fun x => inp.edgeSeq x = s)
      (Finset.range inp.nEdges), toProb (finalEdge inp t x) = 0 := by
    rw [← frameSum_toProb, hsum]; rfl
  have hmem : e ∈ Finset.filter (fun x => inp.edgeSeq x = s)
      (Finset.range inp.nEdges) := by
    simp [Finset.mem_filter, Finset.mem_range, he, hseq]
  have := (Finset.sum_eq_zero_iff_of_nonneg
    (fun x _ => good_toProb_nonneg (finalEdge_good inp t x))).mp hz e hmem
  exact good_toProb_inj (finalEdge_good inp t e) good_inf this

/-- Concrete base-engine input with an unreachable edge: one frame, one
sequence, start state `0`, but the single edge leaves state `1`. -/
def exUnreach : FBW where
  nFrames := 1
  nSeqs := 1
  nEmissions := 1
  nStates := 2
  nEdges := 1
  amFlat := fun _ => 0
  maskFlat := fun _ => 1
  edgeFrom := fun _ => 1
  edgeTo := fun _ => 1
  edgeEmission := fun _ => 0
  edgeSeq := fun _ => 0
  edgeWeight := fun _ => 0
  startState := fun _ => 0
  endState := fun _ => 1

lemma exUnreach_bwd : bwdScore exUnreach 1 1 = FVal.fin 0 := by
  show initBwd exUnreach 0 (bwdAfter exUnreach 0) 1 = FVal.fin 0
  unfold initBwd
  rw [show List.range exUnreach.nSeqs = [0] from rfl, List.foldl_cons,
    List.foldl_nil]
  unfold initBwdStep
  rw [if_pos ⟨rfl, Or.inl rfl⟩]
  rfl

lemma exUnreach_edgeFwdRow : edgeFwdRow exUnreach 0 0 = FVal.inf := by
  unfold edgeFwdRow
  rw [if_pos (show (fwdState exUnreach 0 (exUnreach.edgeFrom 0)).isInf = true
    from rfl)]

lemma exUnreach_finalEdge : finalEdge exUnreach 0 0 = FVal.inf := by
  unfold finalEdge
  rw [show bwdScore exUnreach (0 + 1) (exUnreach.edgeTo 0) = FVal.fin 0
    from exUnreach_bwd]
  rw [if_neg (by simp [FVal.isInf]), exUnreach_edgeFwdRow]
  rfl

lemma exUnreach_frameSum : frameSum exUnreach 0 0 = FVal.inf := by
  unfold frameSum
  rw [show List.range exUnreach.nEdges = [0] from rfl, List.foldl_cons,
    List.foldl_nil, if_pos (show exUnreach.edgeSeq 0 = 0 from rfl),
    exUnreach_finalEdge]
  rfl

lemma exUnreach_normBuffer : normBuffer exUnreach 0 0 = FVal.nan := by
  unfold normBuffer
  rw [exUnreach_finalEdge,
    show frameSum exUnreach 0 (exUnreach.edgeSeq 0) = FVal.inf
      from exUnreach_frameSum]
  rfl

lemma exUnreach_output : output exUnreach 0 0 0 = FVal.inf := by
  unfold output
  rw [show List.range exUnreach.nEdges = [0] from rfl, List.foldl_cons,
    List.foldl_nil, if_pos ⟨rfl, rfl⟩, exUnreach_normBuffer]
  rfl

/-- C2 as stated is false: on a fully masked-in frame whose single edge is
unreachable (its source state is not the start state), the output row is all
`+inf`, so its log-sum-exp is `+inf`, not `0`. -/
theorem C2_counterexample :
    exUnreach.maskAt 0 0 = 1 ∧ outputLse exUnreach 0 0 = FVal.inf ∧
      FVal.inf ≠ FVal.fin 0 := by
  refine ⟨rfl, ?_, by intro h; cases h⟩
  unfold outputLse
  rw [show List.range exUnreach.nEmissions = [0] from rfl, List.foldl_cons,
    List.foldl_nil, exUnreach_output]
  rfl

/-- C2 amended: for every (time, sequence) cell whose per-sequence
log-sum-exp over the edge buffer is finite (in particular any valid cell with
at least one reachable edge), and whose edges carry in-range emission labels,
the log-sum-exp over all emission labels of `output[t, s, :]` is exactly `0`:
posteriors sum to one. -/
theorem C2_amended_posterior_normalisation (inp : FBW) (t s : ℕ) (c : ℝ)
    (hsum : frameSum inp t s = FVal.fin c)
    (hem : ∀ e, e < inp.nEdges → inp.edgeSeq e = s →
      inp.edgeEmission e < inp.nEmissions) :
    outputLse inp t s = FVal.fin 0 := by
  have hnbGood : ∀ e, e < inp.nEdges → inp.edgeSeq e = s →
      Good (normBuffer inp t e) := by
    intro e he hseq
    unfold normBuffer
    rw [hseq, hsum]
    exact (toProb_fsub_fin (finalEdge_good inp t e) c).1
  have hout : ∀ em, Good (output inp t s em) ∧
      toProb (output inp t s em)
        = ∑ e ∈ Finset.filter
            (fun e => inp.edgeSeq e = s ∧ inp.edgeEmission e = em)
            (Finset.range inp.nEdges), toProb (normBuffer inp t e) :=
    fun em => foldl_guard_prob_add
      (fun e => inp.edgeSeq e = s ∧ inp.edgeEmission e = em)
      (normBuffer inp t) inp.nEdges (fun e he hp => hnbGood e he hp.1)
  have hlse := foldl_prob_add (fun em => output inp t s em)
    (List.range inp.nEmissions) FVal.inf good_inf (fun em _ => (hout em).1)
  have hgood : Good (outputLse inp t s) := hlse.1
  have hval : toProb (outputLse inp t s) = 1 := by
    have h1 : toProb (outputLse inp t s)
        = ∑ em ∈ Finset.range inp.nEmissions, toProb (output inp t s em) := by
      rw [show toProb (outputLse inp t s) = toProb FVal.inf
          + ((List.range inp.nEmissions).map
              (fun em => toProb (output inp t s em))).sum from hlse.2,
        list_range_map_sum]
      show 0 + _ = _
      rw [zero_add]
    have h2 : ∑ em ∈ Finset.range inp.nEmissions, toProb (output inp t s em)
        = ∑ e ∈ Finset.filter (fun e => inp.edgeSeq e = s)
            (Finset.range inp.nEdges), toProb (normBuffer inp t e) := by
      rw [Finset.sum_congr rfl (fun em _ => (hout em).2)]
      rw [Finset.sum_congr rfl
        (fun em _ => congrArg (fun fs => ∑ e ∈ fs, toProb (normBuffer inp t e))
          (Finset.filter_filter (fun e => inp.edgeSeq e = s)
            (fun e => inp.edgeEmission e = em) (Finset.range inp.nEdges)).symm)]
      exact Finset.sum_fiberwise_of_maps_to
        (fun e hmem => Finset.mem_range.mpr
          (hem e (Finset.mem_range.mp (Finset.mem_filter.mp hmem).1)
            (Finset.mem_filter.mp hmem).2)) _
    have h3 : ∑ e ∈ Finset.filter (fun e => inp.edgeSeq e = s)
          (Finset.range inp.nEdges), toProb (normBuffer inp t e)
        = (∑ e ∈ Finset.filter (fun e => inp.edgeSeq e = s)
            (Finset.range inp.nEdges), toProb (finalEdge inp t e))
          * Real.exp c := by
      rw [Finset.sum_mul]
      refine Finset.sum_congr rfl (fun e hmem => ?_)
      have hseq : inp.edgeSeq e = s := (Finset.mem_filter.mp hmem).2
      unfold normBuffer
      rw [hseq, hsum]
      exact (toProb_fsub_fin (finalEdge_good inp t e) c).2
    rw [h1, h2, h3, ← frameSum_toProb, hsum]
    show Real.exp (-c) * Real.exp c = 1
    rw [← Real.exp_add]
    norm_num
  refine good_toProb_inj hgood (good_fin 0) ?_
  rw [hval]
  show (1 : ℝ) = Real.exp (-0)
  norm_num

lemma exC1_finalEdge : finalEdge exC1 0 0 = FVal.fin 0 := by
  unfold finalEdge
  rw [show bwdScore exC1 (0 + 1) (exC1.edgeTo 0) = FVal.fin 0 from exC1_bwd,
    if_neg (by simp [FVal.isInf])]
  show FVal.fin (0 + (0 + 0 + 0) + 0) = _
  norm_num

lemma exC1_frameSum : frameSum exC1 0 0 = FVal.fin 0 := by
  unfold frameSum
  rw [show List.range exC1.nEdges = [0] from rfl, List.foldl_cons,
    List.foldl_nil, if_pos (show exC1.edgeSeq 0 = 0 from rfl), exC1_finalEdge,
    prob_add_inf_left (FVal.fin 0) rfl]

theorem C2_witness :
    frameSum exC1 0 0 = FVal.fin 0 ∧ outputLse exC1 0 0 = FVal.fin 0 :=
  ⟨exC1_frameSum,
    C2_amended_posterior_normalisation exC1 0 0 0 exC1_frameSum
      (fun _ _ _ => Nat.one_pos)⟩

open Classical in
theorem C6_witness :
    (fwdState exUnreach 0 1
      = if ∃ b ∈ List.range exUnreach.nSeqs, exUnreach.startState b = 1
        then FVal.fin 0 else FVal.inf) ∧
    edgeFwdRow exUnreach 0 0 = FVal.inf ∧
    fwdStep exUnreach 0 (fwdState exUnreach 0) (fun _ => FVal.inf) 0
      = (fun _ => FVal.inf) :=
  C6_amended_forward_init_and_skip exUnreach 0 0 1 (fun _ => FVal.inf) rfl

/-- C10 as stated is false: for an all-`+inf` cell, `normalize` writes the
sums output as `0.0` (true part), but the edge-buffer entries do not "remain
+infinity" - the unconditional `buffer[e] -= sum[s]` turns them into NaN
(`inf - inf`). -/
theorem C10_counterexample :
    frameSum exUnreach 0 0 = FVal.inf ∧ sumOut exUnreach 0 0 = FVal.fin 0 ∧
      normBuffer exUnreach 0 0 = FVal.nan ∧ FVal.nan ≠ FVal.inf := by
  refine ⟨exUnreach_frameSum, ?_, exUnreach_normBuffer, by intro h; cases h⟩
  unfold sumOut
  rw [exUnreach_frameSum]
  rfl

/-- C10 amended: for a (time, sequence) cell with no finite-scored edge, the
sums output is written as `0.0`; the edge-buffer entries of that cell become
NaN (`inf - inf`) after normalisation, and (through the NaN guard of
`prob_add`) they still contribute zero posterior mass: the output cells of
that (time, sequence) stay `+inf`. -/
theorem C10_amended_empty_cell (inp : FBW) (t s e em : ℕ)
    (hsum : frameSum inp t s = FVal.inf)
    (he : e < inp.nEdges) (hseq : inp.edgeSeq e = s) :
    sumOut inp t s = FVal.fin 0 ∧ normBuffer inp t e = FVal.nan ∧
      output inp t s em = FVal.inf := by
  refine ⟨?_, ?_, ?_⟩
  · unfold sumOut
    rw [hsum]
    rfl
  · unfold normBuffer
    rw [finalEdge_inf_of_frameSum_inf inp t s e hsum he hseq, hseq, hsum]
    rfl
  · unfold output
    refine foldl_preserve (fun a => a = FVal.inf) _ _ _ rfl ?_
    intro acc x hx hacc
    by_cases hc : inp.edgeSeq x = s ∧ inp.edgeEmission x = em
    · rw [if_pos hc, hacc]
      have hnb : normBuffer inp t x = FVal.nan := by
        unfold normBuffer
        rw [finalEdge_inf_of_frameSum_inf inp t s x hsum
          (List.mem_range.mp hx) hc.1, hc.1, hsum]
        rfl
      rw [hnb]
      rfl
    · rw [if_neg hc]
      exact hacc

theorem C10_witness :
    sumOut exUnreach 0 0 = FVal.fin 0 ∧
      normBuffer exUnreach 0 0 = FVal.nan ∧
      output exUnreach 0 0 0 = FVal.inf :=
  C10_amended_empty_cell exUnreach 0 0 0 0 exUnreach_frameSum Nat.one_pos rfl

/-- C3: the log-domain addition primitive `prob_add` satisfies
`combine(a, +inf) = a` (for non-NaN `a`), commutativity on finite
non-negative scores, `combine(a, a)` is never NaN, a NaN difference yields
`+inf`, and on finite values it computes exactly
`-log1p(exp(-|a-b|)) + min(a,b) = -log(exp(-a) + exp(-b))`. -/
theorem C3_prob_add_properties (a b : FVal) (x y : ℝ) (hx : 0 ≤ x)
    (hy : 0 ≤ y) (ha : a.isNan = false) :
    prob_add a FVal.inf = a ∧
    prob_add (FVal.fin x) (FVal.fin y) = prob_add (FVal.fin y) (FVal.fin x) ∧
    (prob_add b b).isNan = false ∧
    ((fsub a b).isNan = true → prob_add a b = FVal.inf) ∧
    prob_add (FVal.fin x) (FVal.fin y)
      = FVal.fin (-Real.log (Real.exp (-x) + Real.exp (-y))) :=
  ⟨prob_add_inf_right a ha, prob_add_comm _ _, prob_add_self_not_nan b,
    prob_add_of_nan_diff a b, prob_add_fin_fin x y⟩

theorem C3_witness :
    prob_add FVal.inf FVal.inf = FVal.inf ∧
    prob_add (FVal.fin 0) (FVal.fin 1) = prob_add (FVal.fin 1) (FVal.fin 0) ∧
    (prob_add FVal.inf FVal.inf).isNan = false ∧
    ((fsub FVal.inf FVal.inf).isNan = true →
      prob_add FVal.inf FVal.inf = FVal.inf) ∧
    prob_add (FVal.fin 0) (FVal.fin 1)
      = FVal.fin (-Real.log (Real.exp (-0) + Real.exp (-1))) :=
  C3_prob_add_properties FVal.inf FVal.inf 0 1 le_rfl zero_le_one rfl

/-- The tensor dimensions checked by the `assert`s at the top of the base
`c_fw_code` (am_scores, out, start_end_states, sum_output), plus the
`assert(n_frames > 0)` executed just before the sweeps. -/
structure BaseDims where
  amDim0 : ℕ
  amDim1 : ℕ
  amDim2 : ℕ
  outDim0 : ℕ
  outDim1 : ℕ
  outDim2 : ℕ
  sesDim1 : ℕ
  sumDim0 : ℕ
  sumDim1 : ℕ

/-- The conjunction of all `assert`s that run before any sweep in the base
`c_fw_code`. -/
def baseAssertsOk (d : BaseDims) : Bool :=
  (d.amDim0 == d.outDim0) && (d.amDim1 == d.outDim1) && (d.amDim2 == d.outDim2)
    && (d.amDim1 == d.sesDim1) && (d.sumDim0 == d.amDim0)
    && (d.sumDim1 == d.amDim1) && decide (0 < d.amDim0)

/-- The dimensions the framework passes for an `FBW` input (the outputs are
allocated with the shapes declared in `out_info`, which mirror `am_scores`). -/
def FBW.dims (inp : FBW) : BaseDims where
  amDim0 := inp.nFrames
  amDim1 := inp.nSeqs
  amDim2 := inp.nEmissions
  outDim0 := inp.nFrames
  outDim1 := inp.nSeqs
  outDim2 := inp.nEmissions
  sesDim1 := inp.nSeqs
  sumDim0 := inp.nFrames
  sumDim1 := inp.nSeqs

/-- Input with an out-of-range emission index (`1`, with `n_emissions = 1`):
the single edge's am-score read lands one cell past the valid am region. -/
def exC8A : FBW :=
  { exC1 with edgeEmission := fun _ => 1 }

/-- Same as `exC8A` on every in-range am cell (address `0`), differing only at
the out-of-range address `1`. -/
def exC8B : FBW :=
  { exC8A with amFlat := fun a => if a = 0 then 0 else 1 }

lemma exC8A_bwd : bwdScore exC8A 1 1 = FVal.fin 0 := by
  show initBwd exC8A 0 (bwdAfter exC8A 0) 1 = FVal.fin 0
  unfold initBwd
  rw [show List.range exC8A.nSeqs = [0] from rfl, List.foldl_cons,
    List.foldl_nil]
  unfold initBwdStep
  rw [if_pos ⟨rfl, Or.inl rfl⟩]
  rfl

lemma exC8B_bwd : bwdScore exC8B 1 1 = FVal.fin 0 := by
  show initBwd exC8B 0 (bwdAfter exC8B 0) 1 = FVal.fin 0
  unfold initBwd
  rw [show List.range exC8B.nSeqs = [0] from rfl, List.foldl_cons,
    List.foldl_nil]
  unfold initBwdStep
  rw [if_pos ⟨rfl, Or.inl rfl⟩]
  rfl

/-- C8 as stated is false: no kernel or host code validates edge state or
emission indices.  Two inputs that pass every pre-sweep assert and agree on
the entire valid am-score region (the single address `0`) but differ one cell
past its end produce different edge-buffer results: the sweep executes with
the out-of-range emission index instead of aborting. -/
theorem C8_counterexample :
    baseAssertsOk exC8A.dims = true ∧ baseAssertsOk exC8B.dims = true ∧
    exC8A.edgeEmission 0 = 1 ∧ exC8A.nEmissions = 1 ∧
    exC8A.amFlat 0 = exC8B.amFlat 0 ∧
    finalEdge exC8A 0 0 = FVal.fin 0 ∧ finalEdge exC8B 0 0 = FVal.fin 1 := by
  refine ⟨rfl, rfl, rfl, rfl, by norm_num [exC8A, exC8B, exC1], ?_, ?_⟩
  · unfold finalEdge
    rw [show bwdScore exC8A (0 + 1) (exC8A.edgeTo 0) = FVal.fin 0
        from exC8A_bwd, if_neg (by simp [FVal.isInf])]
    show FVal.fin (0 + (0 + 0 + 0) + 0) = _
    norm_num
  · unfold finalEdge
    rw [show bwdScore exC8B (0 + 1) (exC8B.edgeTo 0) = FVal.fin 0
        from exC8B_bwd, if_neg (by simp [FVal.isInf])]
    show FVal.fin (0 + (0 + 0 + (if (1 : ℕ) = 0 then (0 : ℝ) else 1)) + 0) = _
    norm_num

/-- C8 amended: the pre-sweep asserts detect exactly mismatched tensor shapes
and zero-length inputs (`n_frames = 0`); out-of-range state or emission
indices (and `K < 1` in the segmental engine) are not validated anywhere, and
the sweeps execute with such indices. -/
theorem C8_amended_pre_sweep_checks (d : BaseDims) :
    baseAssertsOk d = true ↔
      (d.amDim0 = d.outDim0 ∧ d.amDim1 = d.outDim1 ∧ d.amDim2 = d.outDim2 ∧
        d.amDim1 = d.sesDim1 ∧ d.sumDim0 = d.amDim0 ∧ d.sumDim1 = d.amDim1 ∧
        0 < d.amDim0) := by
  unfold baseAssertsOk
  simp [Bool.and_eq_true, and_assoc]

/-- Inputs of `SegmentFastBaumWelchOp` (`c_fw_code`).  `am_scores` is
addressed through the (possibly negative) batch index, so its flat view is
indexed by `ℤ`; `batch_idxs` is a float tensor reinterpreted as `int*`;
`edges` has rows (from, to, emission, length-model, sequence). -/
structure SegFBW where
  nSegFrames : ℕ
  nBatches : ℕ
  nEmissions : ℕ
  nTotFrames : ℕ
  nSeqs : ℕ
  nEdges : ℕ
  segAmFlat : ℤ → ℝ
  batchFlat : ℕ → ℤ
  edgeFrom : ℕ → ℕ
  edgeTo : ℕ → ℕ
  edgeEmission : ℕ → ℕ
  edgeLenMod : ℕ → ℕ
  edgeSeq : ℕ → ℕ
  edgeWeight : ℕ → ℝ
  lmFlat : ℕ → ℝ
  startState : ℕ → ℕ
  endState : ℕ → ℕ
  segIndexFlat : ℕ → ℝ
  amScoreScales : ℕ → ℝ
  nAmScoreScales : ℕ
  epoch : ℝ

/-- `n_states = end_states[n_seqs - 1] + 1` (read back from device memory). -/
def SegFBW.nStates (S : SegFBW) : ℕ := S.endState (S.nSeqs - 1) + 1

/-- `n_ringbuffer_frames = n_seg_frames + 1`. -/
def SegFBW.R (S : SegFBW) : ℕ := S.nSegFrames + 1

/-- `batch_idxs[time * num_seqs + seq]`. -/
def SegFBW.batchAt (S : SegFBW) (t s : ℕ) : ℤ := S.batchFlat (t * S.nSeqs + s)

/-- `amss_idx = min(static_cast<unsigned>(*epoch), num_am_score_scales - 1)`. -/
noncomputable def SegFBW.scaleIdx (S : SegFBW) : ℕ :=
  min (Nat.floor S.epoch) (S.nAmScoreScales - 1)

/-- `am_score_scale = am_score_scales[amss_idx]`. -/
noncomputable def SegFBW.scale (S : SegFBW) : ℝ := S.amScoreScales S.scaleIdx

/-- `max_seg_frames = min(num_seg_frames, num_tot_frames - time)`. -/
def SegFBW.maxSeg (S : SegFBW) (t : ℕ) : ℕ :=
  min S.nSegFrames (S.nTotFrames - t)

/-- `am_scores[batch_idx * num_seg_frames * num_emissions + i * num_emissions
+ emission_idx]`. -/
def SegFBW.amAt (S : SegFBW) (b : ℤ) (i em : ℕ) : ℝ :=
  S.segAmFlat (b * S.nSegFrames * S.nEmissions + i * S.nEmissions + em)

/-- `length_models[lenmod_idx * num_seg_frames + i]`. -/
def SegFBW.lmAt (S : SegFBW) (lm i : ℕ) : ℝ := S.lmFlat (lm * S.nSegFrames + i)

/-- `fill_array(ring + slot * n_states, inf, n_states)` on the flat ring
buffer (address = slot * n_states + state). -/
def fillSlot (S : SegFBW) (buf : ℕ → FVal) (slot : ℕ) : ℕ → FVal := fun a =>
  if slot * S.nStates ≤ a ∧ a < slot * S.nStates + S.nStates then FVal.inf
  else buf a

/-- The slot cleared at forward iteration `t`:
`(t - 1) %% n_ringbuffer_frames` in unsigned 32-bit arithmetic, which wraps to
`(2^32 - 1) %% R` at `t = 0`. -/
def clearSlotFwd (S : SegFBW) (t : ℕ) : ℕ :=
  if t = 0 then (2 ^ 32 - 1) % S.R else (t - 1) % S.R

/-- `val = prev_plus_edge + am_score_scale * am_buffer_in[i * num_emissions]
+ length_scores[i]` of the segmental kernels. -/
noncomputable def segVal (S : SegFBW) (p : FVal) (b : ℤ) (e i : ℕ) : FVal :=
  fadd (fadd (fadd p (FVal.fin (S.edgeWeight e)))
      (FVal.fin (S.scale * S.amAt b i (S.edgeEmission e))))
    (FVal.fin (S.lmAt (S.edgeLenMod e) i))

/-- `set_start_states` on the (flat) ring buffer: addresses inside slot 0. -/
def setStartSeg (S : SegFBW) (buf : ℕ → FVal) : ℕ → FVal :=
  (List.range S.nSeqs).foldl
    (fun bb q => Function.update bb (S.startState q) (FVal.fin 0)) buf

/-- Ring-buffer effect of one thread of kernel `101_next_frame_fwd` at time
`t`: skip on `isinf(prev)`, skip on `batch_idx == -1`, else accumulate
`val_i` into slot `(t % R + 1 + i) % R` at the target state for every segment
length `i < max_seg_frames`. -/
noncomputable def segFwdStep (S : SegFBW) (t : ℕ) (ring : ℕ → FVal) (e : ℕ) :
    ℕ → FVal :=
  let prevVal := ring ((t % S.R) * S.nStates + S.edgeFrom e)
  if prevVal.isInf then ring
  else if S.batchAt t (S.edgeSeq e) = -1 then ring
  else
    (List.range (S.maxSeg t)).foldl
      (fun rg i =>
        Function.update rg
          (((t % S.R) + 1 + i) % S.R * S.nStates + S.edgeTo e)
          (prob_add (rg (((t % S.R) + 1 + i) % S.R * S.nStates + S.edgeTo e))
            (segVal S prevVal (S.batchAt t (S.edgeSeq e)) e i)))
      ring

/-- The ring buffer after `t` iterations of the segmental fwd pass (after the
global `+inf` fill and `set_start_states`). -/
noncomputable def ringFwdAfter (S : SegFBW) : ℕ → ℕ → FVal
  | 0 => setStartSeg S (fun _ => FVal.inf)
  | t + 1 =>
    (List.range S.nEdges).foldl (segFwdStep S t)
      (fillSlot S (ringFwdAfter S t) (clearSlotFwd S t))

/-- The ring buffer seen by the fwd kernel of iteration `t` (after the
per-iteration `fill_array` of the newly exposed slot). -/
noncomputable def ringFwdKernel (S : SegFBW) (t : ℕ) : ℕ → FVal :=
  fillSlot S (ringFwdAfter S t) (clearSlotFwd S t)

/-- `edge_buffer[(t * K + i) * n_edges + e]` after the fwd pass: initialised
to `+inf`, written (`=`, not `+=`) by the fwd kernel only when the source is
reachable, the batch index is not `-1`, and `i < max_seg_frames`. -/
noncomputable def segEdgeFwd (S : SegFBW) (t i e : ℕ) : FVal :=
  let prevVal := ringFwdKernel S t ((t % S.R) * S.nStates + S.edgeFrom e)
  if prevVal.isInf then FVal.inf
  else if S.batchAt t (S.edgeSeq e) = -1 then FVal.inf
  else if i < S.maxSeg t then
    segVal S prevVal (S.batchAt t (S.edgeSeq e)) e i
  else FVal.inf

open Classical in
/-- One thread of the segmental `100_init_bwd_state_buffer` at frame `f`
(loop variable `t = f + 1`; `states` points at ring slot `t %% R`):
```
int batch_idx = batch_idxs[t * num_seqs + idx];
if (batch_idx < 0) return;
if (index[batch_idx] != 0.0 && index[batch_idx + num_batches] == 0.0)
  states[end_states[idx]] = 0.0;
``` -/
noncomputable def segInitBwdStep (S : SegFBW) (f : ℕ) (buf : ℕ → FVal)
    (q : ℕ) : ℕ → FVal :=
  let b := S.batchAt f q
  if b < 0 then buf
  else if S.segIndexFlat b.toNat ≠ 0 ∧
      S.segIndexFlat (b.toNat + S.nBatches) = 0 then
    Function.update buf ((f + 1) % S.R * S.nStates + S.endState q) (FVal.fin 0)
  else buf

/-- The segmental `init_bwd_state_buffer` kernel at frame `f`. -/
noncomputable def segInitBwd (S : SegFBW) (f : ℕ) (buf : ℕ → FVal) :
    ℕ → FVal :=
  (List.range S.nSeqs).foldl (segInitBwdStep S f) buf

/-- Ring-buffer effect of one thread of `102_next_frame_bwd` at time `f`:
skip on `batch_idx == -1`; otherwise log-sum the segment values over the
reachable lengths into `acc_val` and `atomic_prob_add` it into slot
`f %% R` at the (reversed) target state. -/
noncomputable def segBwdStep (S : SegFBW) (f : ℕ) (ring : ℕ → FVal) (e : ℕ) :
    ℕ → FVal :=
  if S.batchAt f (S.edgeSeq e) = -1 then ring
  else
    let acc := (List.range (S.maxSeg f)).foldl
      (fun a i =>
        let pv := ring (((f % S.R) + i + 1) % S.R * S.nStates + S.edgeTo e)
        if pv.isInf then a
        else prob_add a (segVal S pv (S.batchAt f (S.edgeSeq e)) e i))
      FVal.inf
    Function.update ring ((f % S.R) * S.nStates + S.edgeFrom e)
      (prob_add (ring ((f % S.R) * S.nStates + S.edgeFrom e)) acc)

/-- The ring buffer after `j` iterations of the segmental bwd pass (which
starts from a full `+inf` refill); iteration `j + 1` has loop variable
`t = n_tot_frames - j` and processes frame `t - 1`. -/
noncomputable def ringBwdAfter (S : SegFBW) : ℕ → ℕ → FVal
  | 0 => fun _ => FVal.inf
  | j + 1 =>
    (List.range S.nEdges).foldl (segBwdStep S (S.nTotFrames - j - 1))
      (segInitBwd S (S.nTotFrames - j - 1)
        (fillSlot S (ringBwdAfter S j) ((S.nTotFrames - j - 1) % S.R)))

/-- The ring buffer seen by the bwd kernel at frame `f` (next slot freshly
filled, end states seeded by `init_bwd_state_buffer`). -/
noncomputable def ringBwdKernel (S : SegFBW) (f : ℕ) : ℕ → FVal :=
  segInitBwd S f
    (fillSlot S (ringBwdAfter S (S.nTotFrames - (f + 1))) (f % S.R))

/-- The ring buffer after the whole bwd pass (read by
`compute_posterior_weights` via `state_buffer[start_states[seq]]`). -/
noncomputable def ringBwdFinal (S : SegFBW) : ℕ → FVal :=
  ringBwdAfter S S.nTotFrames

/-- `edge_buffer[(t * K + i) * n_edges + e]` after both sweeps: the bwd thread
skips entirely on `batch_idx == -1`, stores `CUDART_INF_F` when the reversed
source is unreachable, else adds it (`+=`). -/
noncomputable def segEdgeFinal (S : SegFBW) (f i e : ℕ) : FVal :=
  if S.batchAt f (S.edgeSeq e) = -1 then segEdgeFwd S f i e
  else if i < S.maxSeg f then
    let pv := ringBwdKernel S f (((f % S.R) + i + 1) % S.R * S.nStates + S.edgeTo e)
    if pv.isInf then FVal.inf
    else fadd (segEdgeFwd S f i e) pv
  else segEdgeFwd S f i e

/-- The shared accumulator `sum_buffer[s]` of `103_compute_framewise_sum` for
thread `(t, i)`: log-sum-exp over all edges of sequence `s`. -/
noncomputable def segFrameSum (S : SegFBW) (t i s : ℕ) : FVal :=
  (List.range S.nEdges).foldl
    (fun acc e =>
      if S.edgeSeq e = s then prob_add acc (segEdgeFinal S t i e) else acc)
    FVal.inf

open Classical in
/-- The write phase of one `compute_framewise_sum` thread `(t, i)`: for every
sequence with a non-negative batch index, store the (`0.0`-clamped) sum into
`output_buffer[i * num_batches + batch]`. -/
noncomputable def segNormThread (S : SegFBW) (t i : ℕ) (buf : ℕ → FVal) :
    ℕ → FVal :=
  (List.range S.nSeqs).foldl
    (fun bb s =>
      let b := S.batchAt t s
      if 0 ≤ b then
        Function.update bb (i * S.nBatches + b.toNat)
          (if (segFrameSum S t i s).isInf = true ∨
              S.segIndexFlat (i * S.nBatches + b.toNat) = 0
           then FVal.fin 0 else segFrameSum S t i s)
      else bb)
    buf

/-- `normalization_factors` after `compute_framewise_sum` (initialised to
`0.0`; with the default `segmentwise_normalization = false` configuration no
`merge_framewise_sum` pass runs afterwards). -/
noncomputable def segNorm (S : SegFBW) : ℕ → FVal :=
  (List.range (S.nTotFrames * S.nSegFrames)).foldl
    (fun buf idx => segNormThread S (idx / S.nSegFrames) (idx % S.nSegFrames) buf)
    (fun _ => FVal.fin 0)

open Classical in
/-- One thread of `105_compute_targets` (thread index `idx`), as a
contribution to the output cell at flat address `a`. -/
noncomputable def segTargetStep (S : SegFBW) (a : ℕ) (acc : FVal) (idx : ℕ) :
    FVal :=
  let e := idx % S.nEdges
  let time := idx / (S.nEdges * S.nSegFrames)
  let sl := (idx / S.nEdges) % S.nSegFrames
  let b := S.batchAt time (S.edgeSeq e)
  if 0 ≤ b ∧ S.segIndexFlat (sl * S.nBatches + b.toNat) ≠ 0 ∧
      sl * S.nBatches * S.nEmissions + b.toNat * S.nEmissions
        + S.edgeEmission e = a then
    prob_add acc (fsub (segEdgeFinal S time sl e)
      (segNorm S (sl * S.nBatches + b.toNat)))
  else acc

/-- `output[a]` after `compute_targets`: initialised to `+inf`, accumulated in
thread-index order. -/
noncomputable def segOutputAt (S : SegFBW) (a : ℕ) : FVal :=
  (List.range (S.nTotFrames * S.nSegFrames * S.nEdges)).foldl
    (segTargetStep S a) FVal.inf

open Classical in
/-- The per-length loop of one `106_compute_posterior_weights` thread, with
its early `return` at the first zero index cell:
```
for (s = 0; s < num_seg_frames; s++) {
  i = s * num_batches + batch_idx;
  if (index[i] == 0.0) return;
  posterior_weigths[i] = exp(-(normalization_factors[i] - seq_sum));
}
``` -/
noncomputable def postLoopAux (S : SegFBW) (b : ℕ) (seqSum : FVal) :
    ℕ → ℕ → (ℕ → FVal) → (ℕ → FVal)
  | 0, _, buf => buf
  | fuel + 1, s, buf =>
    if S.segIndexFlat (s * S.nBatches + b) = 0 then buf
    else
      postLoopAux S b seqSum fuel (s + 1)
        (Function.update buf (s * S.nBatches + b)
          (fexp (fneg (fsub (segNorm S (s * S.nBatches + b)) seqSum))))

/-- One full `compute_posterior_weights` thread for the pair `(t, q)`. -/
noncomputable def postThread (S : SegFBW) (t q : ℕ) (buf : ℕ → FVal) :
    ℕ → FVal :=
  let b := S.batchAt t q
  if b < 0 then buf
  else
    postLoopAux S b.toNat (ringBwdFinal S (S.startState q)) S.nSegFrames 0 buf

/-- `posterior_weigths` after `compute_posterior_weights` (initialised to
`0.0`). -/
noncomputable def segPosterior (S : SegFBW) : ℕ → FVal :=
  (List.range (S.nTotFrames * S.nSeqs)).foldl
    (fun buf idx => postThread S (idx / S.nSeqs) (idx % S.nSeqs) buf)
    (fun _ => FVal.fin 0)

/-- Concrete segmental input whose only (time, seq) pair has batch index `-2`:
negative, but not the `-1` the fwd/bwd kernels test for. -/
noncomputable def exC7 : SegFBW where
  nSegFrames := 1
  nBatches := 1
  nEmissions := 1
  nTotFrames := 1
  nSeqs := 1
  nEdges := 1
  segAmFlat := fun _ => 0
  batchFlat := fun _ => -2
  edgeFrom := fun _ => 0
  edgeTo := fun _ => 1
  edgeEmission := fun _ => 0
  edgeLenMod := fun _ => 0
  edgeSeq := fun _ => 0
  edgeWeight := fun _ => 0
  lmFlat := fun _ => 0
  startState := fun _ => 0
  endState := fun _ => 1
  segIndexFlat := fun _ => 1
  amScoreScales := fun _ => 1
  nAmScoreScales := 1
  epoch := 0

lemma exC7_ringFwdKernel_zero : ringFwdKernel exC7 0 0 = FVal.fin 0 := by
  show fillSlot exC7 (setStartSeg exC7 (fun _ => FVal.inf)) (clearSlotFwd exC7 0) 0
    = FVal.fin 0
  rw [fillSlot, if_neg (by norm_num [clearSlotFwd, exC7, SegFBW.R, SegFBW.nStates])]
  rfl

/-- C7 as stated is false: a negative batch index that is not exactly `-1`
does not short-circuit the forward kernel; the edge thread still writes its
edge-buffer cell and accumulates into the ring buffer. -/
theorem C7_counterexample :
    exC7.batchAt 0 (exC7.edgeSeq 0) = -2 ∧
    segEdgeFwd exC7 0 0 0 = FVal.fin (0 + 0 + exC7.scale * 0 + 0) ∧
    FVal.fin (0 + 0 + exC7.scale * 0 + 0) ≠ FVal.inf ∧
    segFwdStep exC7 0 (ringFwdKernel exC7 0) 0 3
      = FVal.fin (0 + 0 + exC7.scale * 0 + 0) ∧
    ringFwdKernel exC7 0 3 = FVal.inf := by
  have hprev : ringFwdKernel exC7 0 ((0 % exC7.R) * exC7.nStates + exC7.edgeFrom 0)
      = FVal.fin 0 := exC7_ringFwdKernel_zero
  have hslot3 : ringFwdKernel exC7 0 3 = FVal.inf := by
    show fillSlot exC7 (setStartSeg exC7 (fun _ => FVal.inf)) (clearSlotFwd exC7 0) 3
      = FVal.inf
    rw [fillSlot,
      if_pos (by norm_num [clearSlotFwd, exC7, SegFBW.R, SegFBW.nStates])]
  have hval : segVal exC7 (FVal.fin 0) (exC7.batchAt 0 (exC7.edgeSeq 0)) 0 0
      = FVal.fin (0 + 0 + exC7.scale * 0 + 0) := by
    unfold segVal
    show FVal.fin (0 + 0 + exC7.scale * exC7.amAt (exC7.batchAt 0 (exC7.edgeSeq 0)) 0
      (exC7.edgeEmission 0) + exC7.lmAt (exC7.edgeLenMod 0) 0) = _
    rfl
  have hne : FVal.fin (0 + 0 + exC7.scale * 0 + 0) ≠ FVal.inf := fun h => by cases h
  refine ⟨rfl, ?_, hne, ?_, hslot3⟩
  · unfold segEdgeFwd
    rw [hprev]
    rw [if_neg (by simp [FVal.isInf]), if_neg (by decide), if_pos (by decide)]
    exact hval
  · unfold segFwdStep
    rw [hprev]
    rw [if_neg (by simp [FVal.isInf]), if_neg (by decide)]
    rw [show List.range (exC7.maxSeg 0) = [0] from rfl, List.foldl_cons,
      List.foldl_nil]
    rw [show ((0 % exC7.R) + 1 + 0) % exC7.R * exC7.nStates + exC7.edgeTo 0 = 3
      from rfl]
    rw [Function.update_same, hslot3, prob_add_inf_left _ (by rw [hval]; rfl), hval]

/-- C7 amended: the forward and backward segmental kernels short-circuit a
(time, seq) pair exactly when its batch index equals the `-1` sentinel (no
edge-buffer or state-buffer write), while `compute_targets` (like the init,
framewise-sum and posterior kernels) short-circuits for any negative batch
index. -/
theorem C7_amended_none_sentinel (S : SegFBW) (t i e a idx : ℕ)
    (ring : ℕ → FVal) (acc : FVal) :
    (S.batchAt t (S.edgeSeq e) = -1 →
      segFwdStep S t ring e = ring ∧ segEdgeFwd S t i e = FVal.inf ∧
      segBwdStep S t ring e = ring ∧
      segEdgeFinal S t i e = segEdgeFwd S t i e) ∧
    (S.batchAt (idx / (S.nEdges * S.nSegFrames)) (S.edgeSeq (idx % S.nEdges))
        < 0 →
      segTargetStep S a acc idx = acc) := by
  constructor
  · intro hb
    refine ⟨?_, ?_, ?_, ?_⟩
    · show (if (ring ((t % S.R) * S.nStates + S.edgeFrom e)).isInf then ring
        else if S.batchAt t (S.edgeSeq e) = -1 then ring else _) = ring
      by_cases hinf : (ring ((t % S.R) * S.nStates + S.edgeFrom e)).isInf
      · rw [if_pos hinf]
      · rw [if_neg hinf, if_pos hb]
    · show (if (ringFwdKernel S t ((t % S.R) * S.nStates + S.edgeFrom e)).isInf
          then FVal.inf
        else if S.batchAt t (S.edgeSeq e) = -1 then FVal.inf else _) = FVal.inf
      by_cases hinf :
        (ringFwdKernel S t ((t % S.R) * S.nStates + S.edgeFrom e)).isInf
      · rw [if_pos hinf]
      · rw [if_neg hinf, if_pos hb]
    · show (if S.batchAt t (S.edgeSeq e) = -1 then ring else _) = ring
      rw [if_pos hb]
    · show (if S.batchAt t (S.edgeSeq e) = -1 then segEdgeFwd S t i e else _)
        = segEdgeFwd S t i e
      rw [if_pos hb]
  · intro hb
    show (if 0 ≤ S.batchAt (idx / (S.nEdges * S.nSegFrames))
          (S.edgeSeq (idx % S.nEdges)) ∧ _ ∧ _ then _ else acc) = acc
    rw [if_neg (fun hc => absurd hc.1 (not_le.mpr hb))]

/-- `exC7` with the batch index replaced by the real `-1` sentinel. -/
noncomputable def exC7W : SegFBW :=
  { exC7 with batchFlat := fun _ => -1 }

theorem C7_witness :
    (segFwdStep exC7W 0 (fun _ => FVal.inf) 0 = (fun _ => FVal.inf) ∧
      segEdgeFwd exC7W 0 0 0 = FVal.inf ∧
      segBwdStep exC7W 0 (fun _ => FVal.inf) 0 = (fun _ => FVal.inf) ∧
      segEdgeFinal exC7W 0 0 0 = segEdgeFwd exC7W 0 0 0) ∧
    segTargetStep exC7W 0 FVal.inf 0 = FVal.inf :=
  ⟨(C7_amended_none_sentinel exC7W 0 0 0 0 0 (fun _ => FVal.inf) FVal.inf).1
      rfl,
    (C7_amended_none_sentinel exC7W 0 0 0 0 0 (fun _ => FVal.inf) FVal.inf).2
      (by decide)⟩

/-- A fold of buffer transformers keeps a cell's value if every step does. -/
lemma foldl_buf_stable {β : Type} (f : (ℕ → β) → ℕ → (ℕ → β)) (l : List ℕ)
    (a : ℕ) (v : β)
    (hstep : ∀ buf q, q ∈ l → buf a = v → (f buf q) a = v) :
    ∀ buf, buf a = v → (List.foldl f buf l) a = v := by
  induction l with
  | nil => exact fun buf h => h
  | cons c l ih =>
    intro buf h
    exact ih (fun buf q hq => hstep buf q (by simp [hq])) (f buf c)
      (hstep buf c (by simp) h)

/-- A fold of buffer transformers leaves a cell untouched if every step
does. -/
lemma foldl_buf_untouched {β : Type} (f : (ℕ → β) → ℕ → (ℕ → β)) (l : List ℕ)
    (a : ℕ) (hstep : ∀ buf q, q ∈ l → (f buf q) a = buf a) :
    ∀ buf, (List.foldl f buf l) a = buf a := by
  induction l with
  | nil => exact fun _ => rfl
  | cons c l ih =>
    intro buf
    rw [List.foldl_cons, ih (fun buf q hq => hstep buf q (by simp [hq])),
      hstep buf c (by simp)]

/-- If some step of a fold definitely writes `v` into a cell and every step
either preserves the cell or writes `v`, the fold ends with `v` there. -/
lemma foldl_buf_write {β : Type} (f : (ℕ → β) → ℕ → (ℕ → β)) (l : List ℕ)
    (a : ℕ) (v : β)
    (hpre : ∀ buf q, q ∈ l → (f buf q) a = buf a ∨ (f buf q) a = v)
    (q0 : ℕ) (hq0 : q0 ∈ l) (hw : ∀ buf, (f buf q0) a = v) :
    ∀ buf, (List.foldl f buf l) a = v := by
  induction l with
  | nil => cases hq0
  | cons c l ih =>
    intro buf
    rcases List.mem_cons.mp hq0 with hc | hc
    · subst hc
      rw [List.foldl_cons]
      refine foldl_buf_stable f l a v ?_ (f buf q0) (hw buf)
      intro buf' q hq hbuf
      rcases hpre buf' q (by simp [hq]) with h | h
      · rw [h, hbuf]
      · exact h
    · rw [List.foldl_cons]
      exact ih (fun buf' q hq => hpre buf' q (by simp [hq])) hc (f buf c)

/-- A `compute_posterior_weights` per-length loop leaves untouched every cell
outside its own write range. -/
lemma postLoopAux_untouched (S : SegFBW) (b : ℕ) (w : FVal) :
    ∀ fuel s0 (buf : ℕ → FVal) (a : ℕ),
      (∀ s', s0 ≤ s' → s' < s0 + fuel → a ≠ s' * S.nBatches + b) →
      postLoopAux S b w fuel s0 buf a = buf a := by
  intro fuel
  induction fuel with
  | zero => intro s0 buf a _; rfl
  | succ fuel ih =>
    intro s0 buf a ha
    show (if S.segIndexFlat (s0 * S.nBatches + b) = 0 then buf
      else postLoopAux S b w fuel (s0 + 1)
        (Function.update buf (s0 * S.nBatches + b)
          (fexp (fneg (fsub (segNorm S (s0 * S.nBatches + b)) w))))) a = buf a
    by_cases hidx : S.segIndexFlat (s0 * S.nBatches + b) = 0
    · rw [if_pos hidx]
    · rw [if_neg hidx,
        ih (s0 + 1) _ a (fun s' hs1 hs2 => ha s' (by omega) (by omega)),
        Function.update_noteq (ha s0 le_rfl (by omega))]

/-- The value a `compute_posterior_weights` loop stores at segment length `s`,
provided every length up to `s` is valid (the loop `return`s at the first
invalid one). -/
lemma postLoopAux_at (S : SegFBW) (b : ℕ) (w : FVal) (hbn : b < S.nBatches) :
    ∀ fuel s0 s (buf : ℕ → FVal), s0 ≤ s → s < s0 + fuel →
      (∀ s', s0 ≤ s' → s' ≤ s → S.segIndexFlat (s' * S.nBatches + b) ≠ 0) →
      postLoopAux S b w fuel s0 buf (s * S.nBatches + b)
        = fexp (fneg (fsub (segNorm S (s * S.nBatches + b)) w)) := by
  intro fuel
  induction fuel with
  | zero => intro s0 s buf h1 h2; omega
  | succ fuel ih =>
    intro s0 s buf h1 h2 hvalid
    show (if S.segIndexFlat (s0 * S.nBatches + b) = 0 then buf
      else postLoopAux S b w fuel (s0 + 1)
        (Function.update buf (s0 * S.nBatches + b)
          (fexp (fneg (fsub (segNorm S (s0 * S.nBatches + b)) w)))))
        (s * S.nBatches + b) = _
    rw [if_neg (hvalid s0 le_rfl h1)]
    by_cases hss : s = s0
    · subst hss
      rw [postLoopAux_untouched S b w fuel (s + 1) _ _
        (fun s' hs1 _ hEq => by
          have hss : s = s' :=
            Nat.eq_of_mul_eq_mul_right (by omega) (Nat.add_right_cancel hEq)
          omega),
        Function.update_same]
    · refine ih (s0 + 1) s _ (by omega) (by omega) ?_
      intro s' hs1 hs2
      exact hvalid s' (by omega) hs2

/-- C9 amended: `compute_posterior_weights` walks the segment lengths in
increasing order and `return`s at the first invalid index cell, so a valid
(length, batch-slot) cell receives `exp(-(normalization - sequence_total))`
only when every smaller length is also valid; cells never written stay at
their `0.0` initialisation. -/
theorem C9_amended_posterior_weights (S : SegFBW) (t0 q0 s b : ℕ)
    (ht : t0 < S.nTotFrames) (hq : q0 < S.nSeqs)
    (hb : S.batchAt t0 q0 = (b : ℤ)) (hbn : b < S.nBatches)
    (hs : s < S.nSegFrames)
    (hvalid : ∀ s', s' ≤ s → S.segIndexFlat (s' * S.nBatches + b) ≠ 0)
    (huniq : ∀ t' q', t' < S.nTotFrames → q' < S.nSeqs →
      (t', q') ≠ (t0, q0) → S.batchAt t' q' ≠ (b : ℤ))
    (hrange : ∀ t' q', t' < S.nTotFrames → q' < S.nSeqs →
      0 ≤ S.batchAt t' q' → (S.batchAt t' q').toNat < S.nBatches) :
    segPosterior S (s * S.nBatches + b)
      = fexp (fneg (fsub (segNorm S (s * S.nBatches + b))
          (ringBwdFinal S (S.startState q0)))) := by
  have hnseq : 0 < S.nSeqs := by omega
  have hnb : 0 < S.nBatches := by omega
  have hw : ∀ buf : ℕ → FVal, postThread S t0 q0 buf (s * S.nBatches + b)
      = fexp (fneg (fsub (segNorm S (s * S.nBatches + b))
          (ringBwdFinal S (S.startState q0)))) := by
    intro buf
    show (if S.batchAt t0 q0 < 0 then buf
      else postLoopAux S (S.batchAt t0 q0).toNat
        (ringBwdFinal S (S.startState q0)) S.nSegFrames 0 buf)
      (s * S.nBatches + b) = _
    rw [if_neg (by rw [hb]; exact not_lt.mpr (Int.natCast_nonneg b)), hb,
      Int.toNat_natCast]
    exact postLoopAux_at S b _ hbn S.nSegFrames 0 s buf (Nat.zero_le s)
      (by omega) (fun s' _ hs2 => hvalid s' hs2)
  have huntouch : ∀ t' q', t' < S.nTotFrames → q' < S.nSeqs →
      (t', q') ≠ (t0, q0) → ∀ buf : ℕ → FVal,
      postThread S t' q' buf (s * S.nBatches + b) = buf (s * S.nBatches + b) := by
    intro t' q' ht' hq' hpair buf
    show (if S.batchAt t' q' < 0 then buf
      else postLoopAux S (S.batchAt t' q').toNat
        (ringBwdFinal S (S.startState q')) S.nSegFrames 0 buf)
      (s * S.nBatches + b) = _
    by_cases hneg : S.batchAt t' q' < 0
    · rw [if_pos hneg]
    · rw [if_neg hneg]
      refine postLoopAux_untouched S _ _ S.nSegFrames 0 buf _ ?_
      intro s' _ _ hEq
      have hb2 : (S.batchAt t' q').toNat < S.nBatches :=
        hrange t' q' ht' hq' (not_lt.mp hneg)
      have hmodl : (s * S.nBatches + b) % S.nBatches = b := by
        rw [Nat.mul_comm s, Nat.mul_add_mod, Nat.mod_eq_of_lt hbn]
      have hmodr : (s' * S.nBatches + (S.batchAt t' q').toNat) % S.nBatches
          = (S.batchAt t' q').toNat := by
        rw [Nat.mul_comm s', Nat.mul_add_mod, Nat.mod_eq_of_lt hb2]
      have hbb : (S.batchAt t' q').toNat = b := by
        rw [← hmodr, ← hEq, hmodl]
      refine huniq t' q' ht' hq' hpair ?_
      rw [← Int.toNat_of_nonneg (not_lt.mp hneg), hbb]
  show List.foldl
      (fun buf idx => postThread S (idx / S.nSeqs) (idx % S.nSeqs) buf)
      (fun _ => FVal.fin 0) (List.range (S.nTotFrames * S.nSeqs))
      (s * S.nBatches + b) = _
  refine foldl_buf_write _ _ _ _ ?_ (t0 * S.nSeqs + q0) ?_ ?_ (fun _ => FVal.fin 0)
  · intro buf u hu
    have hu' : u < S.nTotFrames * S.nSeqs := List.mem_range.mp hu
    have ht' : u / S.nSeqs < S.nTotFrames :=
      (Nat.div_lt_iff_lt_mul hnseq).mpr hu'
    have hq' : u % S.nSeqs < S.nSeqs := Nat.mod_lt _ hnseq
    by_cases hpair : (u / S.nSeqs, u % S.nSeqs) = (t0, q0)
    · right
      have h1 : u / S.nSeqs = t0 := (Prod.mk.injEq _ _ _ _ ▸ hpair).1
      have h2 : u % S.nSeqs = q0 := (Prod.mk.injEq _ _ _ _ ▸ hpair).2
      rw [h1, h2]
      exact hw buf
    · left
      exact huntouch _ _ ht' hq' hpair buf
  · refine List.mem_range.mpr ?_
    have h1 : t0 * S.nSeqs + q0 < (t0 + 1) * S.nSeqs := by
      rw [Nat.succ_mul]; omega
    exact lt_of_lt_of_le h1 (Nat.mul_le_mul_right _ ht)
  · intro buf
    have hdiv : (t0 * S.nSeqs + q0) / S.nSeqs = t0 := by
      rw [Nat.mul_comm t0, Nat.mul_add_div hnseq, Nat.div_eq_of_lt hq]
      omega
    have hmod : (t0 * S.nSeqs + q0) % S.nSeqs = q0 := by
      rw [Nat.mul_comm t0, Nat.mul_add_mod, Nat.mod_eq_of_lt hq]
    rw [hdiv, hmod]
    exact hw buf

/-- `exC7` with batch index `0` and a valid single index cell: a clean K = 1
segmental input. -/
noncomputable def exC9W : SegFBW :=
  { exC7 with
    batchFlat := fun _ => 0
    segIndexFlat := fun a => if a = 0 then 1 else 0 }

theorem C9_witness :
    segPosterior exC9W (0 * exC9W.nBatches + 0)
      = fexp (fneg (fsub (segNorm exC9W (0 * exC9W.nBatches + 0))
          (ringBwdFinal exC9W (exC9W.startState 0)))) :=
  C9_amended_posterior_weights exC9W 0 0 0 0 Nat.one_pos Nat.one_pos rfl
    Nat.one_pos Nat.one_pos
    (fun s' hs' => by
      have h0 : s' = 0 := Nat.le_zero.mp hs'
      subst h0
      show (1 : ℝ) ≠ 0
      norm_num)
    (fun t' q' ht' hq' hpair => by
      have hT : t' < 1 := ht'
      have hQ : q' < 1 := hq'
      have h1 : t' = 0 := by omega
      have h2 : q' = 0 := by omega
      subst h1; subst h2
      exact absurd rfl hpair)
    (fun t' q' _ _ _ => Nat.one_pos)

/-- Concrete segmental input with K = 2, one total frame, whose index cell for
segment length 0 is invalid (`0`) while the cell for length 1 is valid. -/
noncomputable def exK2 : SegFBW where
  nSegFrames := 2
  nBatches := 1
  nEmissions := 1
  nTotFrames := 1
  nSeqs := 1
  nEdges := 1
  segAmFlat := fun _ => 0
  batchFlat := fun _ => 0
  edgeFrom := fun _ => 0
  edgeTo := fun _ => 1
  edgeEmission := fun _ => 0
  edgeLenMod := fun _ => 0
  edgeSeq := fun _ => 0
  edgeWeight := fun _ => 0
  lmFlat := fun _ => 0
  startState := fun _ => 0
  endState := fun _ => 1
  segIndexFlat := fun a => if a = 0 then 0 else 1
  amScoreScales := fun _ => 1
  nAmScoreScales := 1
  epoch := 0

lemma postLoopAux_succ (S : SegFBW) (b : ℕ) (w : FVal) (fuel s : ℕ)
    (buf : ℕ → FVal) :
    postLoopAux S b w (fuel + 1) s buf
      = if S.segIndexFlat (s * S.nBatches + b) = 0 then buf
        else postLoopAux S b w fuel (s + 1)
          (Function.update buf (s * S.nBatches + b)
            (fexp (fneg (fsub (segNorm S (s * S.nBatches + b)) w)))) := rfl

lemma exK2_posterior : segPosterior exK2 (1 * exK2.nBatches + 0) = FVal.fin 0 := by
  unfold segPosterior
  rw [show List.range (exK2.nTotFrames * exK2.nSeqs) = [0] from rfl,
    List.foldl_cons, List.foldl_nil]
  show postThread exK2 0 0 (fun _ => FVal.fin 0) (1 * exK2.nBatches + 0) = _
  simp only [postThread]
  rw [if_neg (by decide)]
  show postLoopAux exK2 0 (ringBwdFinal exK2 (exK2.startState 0)) (1 + 1) 0
    (fun _ => FVal.fin 0) (1 * exK2.nBatches + 0) = _
  rw [postLoopAux_succ,
    if_pos (show exK2.segIndexFlat (0 * exK2.nBatches + 0) = (0 : ℝ) from rfl)]

lemma exK2_bwd_final : ringBwdFinal exK2 (exK2.startState 0) = FVal.inf := by
  have hfill : fillSlot exK2 (ringBwdAfter exK2 0)
      ((exK2.nTotFrames - 0 - 1) % exK2.R) = (fun _ => FVal.inf) :=
    funext (fun a => by rw [fillSlot]; split <;> rfl)
  have hinit : segInitBwd exK2 (exK2.nTotFrames - 0 - 1) (fun _ => FVal.inf)
      = (fun _ => FVal.inf) := by
    unfold segInitBwd
    rw [show List.range exK2.nSeqs = [0] from rfl, List.foldl_cons,
      List.foldl_nil]
    simp only [segInitBwdStep]
    rw [if_neg (by decide), if_neg (fun hc => hc.1 rfl)]
  show ringBwdAfter exK2 (0 + 1) (exK2.startState 0) = FVal.inf
  show (List.foldl (segBwdStep exK2 (exK2.nTotFrames - 0 - 1))
    (segInitBwd exK2 (exK2.nTotFrames - 0 - 1)
      (fillSlot exK2 (ringBwdAfter exK2 0) ((exK2.nTotFrames - 0 - 1) % exK2.R)))
    (List.range exK2.nEdges)) (exK2.startState 0) = FVal.inf
  rw [hfill, hinit, show List.range exK2.nEdges = [0] from rfl,
    List.foldl_cons, List.foldl_nil]
  simp only [segBwdStep]
  rw [if_neg (by decide)]
  rfl

lemma exK2_ringFwdKernel_zero : ringFwdKernel exK2 0 0 = FVal.inf := by
  show fillSlot exK2 (ringFwdAfter exK2 0) (clearSlotFwd exK2 0) 0 = FVal.inf
  rw [fillSlot, if_pos]
  constructor
  · show clearSlotFwd exK2 0 * exK2.nStates ≤ 0
    rw [show clearSlotFwd exK2 0 = 0 by decide]
    exact Nat.zero_le 0
  · show 0 < clearSlotFwd exK2 0 * exK2.nStates + exK2.nStates
    rw [show clearSlotFwd exK2 0 = 0 by decide]
    decide

lemma exK2_edgeFinal_len1 : segEdgeFinal exK2 0 1 0 = FVal.inf := by
  simp only [segEdgeFinal]
  rw [if_neg (by decide), if_neg (by decide)]
  simp only [segEdgeFwd]
  rw [show ringFwdKernel exK2 0 ((0 % exK2.R) * exK2.nStates + exK2.edgeFrom 0)
      = FVal.inf from exK2_ringFwdKernel_zero]
  rw [if_pos (show FVal.inf.isInf = true from rfl)]

lemma exK2_frameSum_len1 : segFrameSum exK2 0 1 0 = FVal.inf := by
  unfold segFrameSum
  rw [show List.range exK2.nEdges = [0] from rfl, List.foldl_cons,
    List.foldl_nil, if_pos (show exK2.edgeSeq 0 = 0 from rfl),
    exK2_edgeFinal_len1]
  rfl

lemma exK2_norm : segNorm exK2 (1 * exK2.nBatches + 0) = FVal.fin 0 := by
  unfold segNorm
  rw [show List.range (exK2.nTotFrames * exK2.nSegFrames) = [0, 1] from rfl,
    List.foldl_cons, List.foldl_cons, List.foldl_nil]
  show segNormThread exK2 0 1
    (segNormThread exK2 0 0 (fun _ => FVal.fin 0)) (1 * exK2.nBatches + 0) = _
  unfold segNormThread
  rw [show List.range exK2.nSeqs = [0] from rfl, List.foldl_cons,
    List.foldl_nil, List.foldl_cons, List.foldl_nil]
  rw [if_pos (by decide), if_pos (by decide)]
  rw [show (1 * exK2.nBatches + (exK2.batchAt 0 0).toNat : ℕ)
    = 1 * exK2.nBatches + 0 from rfl]
  rw [Function.update_same]
  rw [if_pos (Or.inl (by rw [exK2_frameSum_len1]; rfl))]

/-- C9 as stated is false: in `exK2` the cell for segment length 1 is valid
(index `1`) and its batch index is non-negative, yet `compute_posterior_weights`
leaves it at `0.0`, because the per-thread loop `return`s at the invalid
length-0 cell before ever reaching length 1; the claim's formula
`exp(-(normalization - sequence_total))` evaluates to `+inf` there, not `0`. -/
theorem C9_counterexample :
    exK2.batchAt 0 0 = 0 ∧
    exK2.segIndexFlat (1 * exK2.nBatches + 0) = 1 ∧
    segPosterior exK2 (1 * exK2.nBatches + 0) = FVal.fin 0 ∧
    fexp (fneg (fsub (segNorm exK2 (1 * exK2.nBatches + 0))
      (ringBwdFinal exK2 (exK2.startState 0)))) = FVal.inf ∧
    FVal.fin 0 ≠ FVal.inf := by
  refine ⟨rfl, rfl, exK2_posterior, ?_, fun h => by cases h⟩
  rw [exK2_norm, exK2_bwd_final]
  rfl

/-- A K = 1 segmental input equivalent to the base input `exC1` (same graph,
weights, scores, scale 1, zero length model, identity batch indexing, all
in-range index cells valid), whose word just past the end of the index tensor
(read out-of-bounds by the segmental `init_bwd_state_buffer` when
`n_seg_frames = 1`) happens to be nonzero. -/
noncomputable def exSegBad : SegFBW :=
  { exC7 with batchFlat := fun _ => 0 }

lemma exSegBad_bwdKernel : ringBwdKernel exSegBad 0 = (fun _ => FVal.inf) := by
  have hfill : fillSlot exSegBad
      (ringBwdAfter exSegBad (exSegBad.nTotFrames - (0 + 1))) (0 % exSegBad.R)
      = (fun _ => FVal.inf) :=
    funext (fun a => by rw [fillSlot]; split <;> rfl)
  show segInitBwd exSegBad 0 _ = _
  rw [hfill]
  unfold segInitBwd
  rw [show List.range exSegBad.nSeqs = [0] from rfl, List.foldl_cons,
    List.foldl_nil]
  simp only [segInitBwdStep]
  rw [if_neg (by decide)]
  rw [if_neg (fun hc => absurd hc.2 (by show (1 : ℝ) ≠ 0; norm_num))]

lemma exSegBad_edgeFinal : segEdgeFinal exSegBad 0 0 0 = FVal.inf := by
  simp only [segEdgeFinal]
  rw [if_neg (by decide), if_pos (by decide)]
  rw [show ringBwdKernel exSegBad 0
      (((0 % exSegBad.R) + 0 + 1) % exSegBad.R * exSegBad.nStates
        + exSegBad.edgeTo 0) = FVal.inf
    from congrFun exSegBad_bwdKernel _]
  rfl

lemma exSegBad_norm : segNorm exSegBad (0 * exSegBad.nBatches + 0) = FVal.fin 0 := by
  unfold segNorm
  rw [show List.range (exSegBad.nTotFrames * exSegBad.nSegFrames) = [0] from rfl,
    List.foldl_cons, List.foldl_nil]
  rw [show (0 / exSegBad.nSegFrames : ℕ) = 0 from rfl,
    show (0 % exSegBad.nSegFrames : ℕ) = 0 from rfl]
  unfold segNormThread
  rw [show List.range exSegBad.nSeqs = [0] from rfl, List.foldl_cons,
    List.foldl_nil]
  rw [if_pos (by decide)]
  rw [show ((exSegBad.batchAt 0 0).toNat : ℕ) = 0 from rfl]
  rw [Function.update_same]
  have hfs : segFrameSum exSegBad 0 0 0 = FVal.inf := by
    unfold segFrameSum
    rw [show List.range exSegBad.nEdges = [0] from rfl, List.foldl_cons,
      List.foldl_nil, if_pos (show exSegBad.edgeSeq 0 = 0 from rfl),
      exSegBad_edgeFinal]
    rfl
  rw [if_pos (Or.inl (by rw [hfs]; rfl))]

lemma exSegBad_output : segOutputAt exSegBad 0 = FVal.inf := by
  unfold segOutputAt
  rw [show List.range (exSegBad.nTotFrames * exSegBad.nSegFrames
      * exSegBad.nEdges) = [0] from rfl, List.foldl_cons, List.foldl_nil]
  simp only [segTargetStep]
  rw [show (0 % exSegBad.nEdges : ℕ) = 0 from rfl,
    show (0 / (exSegBad.nEdges * exSegBad.nSegFrames) : ℕ) = 0 from rfl,
    show ((0 / exSegBad.nEdges : ℕ) % exSegBad.nSegFrames : ℕ) = 0 from rfl]
  rw [show ((exSegBad.batchAt 0 (exSegBad.edgeSeq 0)).toNat : ℕ) = 0 from rfl]
  rw [if_pos ⟨by decide, by show (1 : ℝ) ≠ 0; norm_num, rfl⟩]
  rw [exSegBad_edgeFinal, exSegBad_norm]
  rfl

lemma exC1_output : output exC1 0 0 0 = FVal.fin 0 := by
  unfold output
  rw [show List.range exC1.nEdges = [0] from rfl, List.foldl_cons,
    List.foldl_nil, if_pos ⟨rfl, rfl⟩]
  have hnb : normBuffer exC1 0 0 = FVal.fin (0 + -0) := by
    unfold normBuffer
    rw [exC1_finalEdge,
      show frameSum exC1 0 (exC1.edgeSeq 0) = FVal.fin 0 from exC1_frameSum]
    rfl
  rw [hnb, prob_add_inf_left (FVal.fin (0 + -0)) rfl]
  norm_num

/-- C4 as stated is false: for `n_seg_frames = 1` the segmental
`init_bwd_state_buffer` reads `index[batch_idx + num_batches]` - one row past
the end of the (1, n_batches) index tensor.  On `exSegBad`, whose in-range
data is fully equivalent to the base input `exC1`, that out-of-bounds word is
nonzero, so no end state is ever seeded, and the segmental output is all
`+inf` while the base engine produces the correct posterior `0`. -/
theorem C4_counterexample :
    exSegBad.nSegFrames = 1 ∧
    exSegBad.segIndexFlat 0 = 1 ∧
    exSegBad.segIndexFlat (exSegBad.nBatches + 0) = 1 ∧
    segOutputAt exSegBad 0 = FVal.inf ∧
    output exC1 0 0 0 = FVal.fin 0 ∧
    FVal.inf ≠ FVal.fin 0 :=
  ⟨rfl, rfl, rfl, exSegBad_output, exC1_output, fun h => by cases h⟩

/-- The "equivalent transition graph and inputs" premise of the segmental
K = 1 reduction: same shape, same edges/weights/start/end states, all of them
in range; the same flat am-score memory; identity batch indexing; unit
am-score scale; zero length model; fully valid masks.  `hoob` constrains the
words just past the end of the segmental index tensor, which the segmental
`init_bwd_state_buffer` reads out of bounds when `n_seg_frames = 1`: they
must be zero exactly at final-frame positions. -/
structure EquivInp (B : FBW) (S : SegFBW) : Prop where
  hK : S.nSegFrames = 1
  hT : S.nTotFrames = B.nFrames
  hs : S.nSeqs = B.nSeqs
  hE : S.nEdges = B.nEdges
  hEm : S.nEmissions = B.nEmissions
  hB : S.nBatches = B.nFrames * B.nSeqs
  hns : S.nStates = B.nStates
  hfrom : ∀ e, S.edgeFrom e = B.edgeFrom e
  hto : ∀ e, S.edgeTo e = B.edgeTo e
  hemi : ∀ e, S.edgeEmission e = B.edgeEmission e
  hseq : ∀ e, S.edgeSeq e = B.edgeSeq e
  hw : ∀ e, S.edgeWeight e = B.edgeWeight e
  hss : ∀ q, S.startState q = B.startState q
  hes : ∀ q, S.endState q = B.endState q
  hssr : ∀ q, q < B.nSeqs → B.startState q < B.nStates
  hesr : ∀ q, q < B.nSeqs → B.endState q < B.nStates
  hfr : ∀ e, e < B.nEdges → B.edgeFrom e < B.nStates
  htr : ∀ e, e < B.nEdges → B.edgeTo e < B.nStates
  hqr : ∀ e, e < B.nEdges → B.edgeSeq e < B.nSeqs
  hemr : ∀ e, e < B.nEdges → B.edgeEmission e < B.nEmissions
  ham : ∀ a : ℕ, S.segAmFlat (a : ℤ) = B.amFlat a
  hbi : ∀ t q, t < B.nFrames → q < B.nSeqs →
    S.batchAt t q = ((t * B.nSeqs + q : ℕ) : ℤ)
  hscale : S.scale = 1
  hlm : ∀ a, S.lmFlat a = 0
  hmask : ∀ a, a < B.nFrames * B.nSeqs → B.maskFlat a = 1
  hidx : ∀ a, a < S.nBatches → S.segIndexFlat a ≠ 0
  hoob : ∀ t q, t < B.nFrames → q < B.nSeqs →
    (S.segIndexFlat (t * B.nSeqs + q + S.nBatches) = 0 ↔ t + 1 = B.nFrames)
  hT0 : 0 < B.nFrames
  hs0 : 0 < B.nSeqs

/-- Unique decomposition of flat ring addresses. -/
lemma slot_addr_inj (NS σ1 σ2 st1 st2 : ℕ) (h1 : st1 < NS) (h2 : st2 < NS) :
    σ1 * NS + st1 = σ2 * NS + st2 ↔ σ1 = σ2 ∧ st1 = st2 := by
  constructor
  · intro hEq
    have hs12 : σ1 = σ2 := by
      have hl : (σ1 * NS + st1) / NS = σ1 := by
        rw [Nat.mul_comm σ1, Nat.mul_add_div (by omega), Nat.div_eq_of_lt h1]
        omega
      have hr : (σ2 * NS + st2) / NS = σ2 := by
        rw [Nat.mul_comm σ2, Nat.mul_add_div (by omega), Nat.div_eq_of_lt h2]
        omega
      rw [← hl, ← hr, hEq]
    subst hs12
    exact ⟨rfl, by omega⟩
  · rintro ⟨h3, h4⟩
    rw [h3, h4]

/-- Reading a flat ring address inside a slot after `fill_array` of another
slot. -/
lemma fillSlot_at (S : SegFBW) (buf : ℕ → FVal) (σ σ' st : ℕ)
    (hst : st < S.nStates) :
    fillSlot S buf σ (σ' * S.nStates + st)
      = if σ' = σ then FVal.inf else buf (σ' * S.nStates + st) := by
  rw [fillSlot]
  by_cases hσ : σ' = σ
  · subst hσ
    rw [if_pos ⟨Nat.le_add_right _ _, by omega⟩, if_pos rfl]
  · rw [if_neg, if_neg hσ]
    rintro ⟨hle, hlt⟩
    rcases Nat.lt_or_ge σ' σ with hlt2 | hge
    · have : σ' * S.nStates + st < σ * S.nStates :=
        lt_of_lt_of_le
          (by rw [Nat.succ_mul]; omega :
            σ' * S.nStates + st < (σ' + 1) * S.nStates)
          (Nat.mul_le_mul_right _ hlt2)
      omega
    · have hgt : σ < σ' := lt_of_le_of_ne hge (fun hc => hσ hc.symm)
      have : σ * S.nStates + S.nStates ≤ σ' * S.nStates := by
        calc σ * S.nStates + S.nStates = (σ + 1) * S.nStates := by ring
        _ ≤ σ' * S.nStates := Nat.mul_le_mul_right _ hgt
      omega

/-- The am-score read of a K = 1 segmental kernel at batch slot
`t * n_seqs + q`, segment length 0, equals the base engine's am-score read at
`(t, q)`. -/
lemma equiv_am (B : FBW) (S : SegFBW) (h : EquivInp B S) (t q em : ℕ) :
    S.amAt ((t * B.nSeqs + q : ℕ) : ℤ) 0 em = B.amAt t q em := by
  rw [SegFBW.amAt, FBW.amAt]
  have haddr : ((t * B.nSeqs + q : ℕ) : ℤ) * (S.nSegFrames : ℤ)
        * (S.nEmissions : ℤ) + ((0 : ℕ) : ℤ) * (S.nEmissions : ℤ) + (em : ℤ)
      = ((t * (B.nSeqs * B.nEmissions) + q * B.nEmissions + em : ℕ) : ℤ) := by
    rw [h.hK, h.hEm]
    push_cast
    ring
  rw [show ((t * B.nSeqs + q : ℕ) : ℤ) * (S.nSegFrames : ℤ) * (S.nEmissions : ℤ)
      + ((0 : ℕ) : ℤ) * (S.nEmissions : ℤ) + (em : ℤ)
    = ((t * (B.nSeqs * B.nEmissions) + q * B.nEmissions + em : ℕ) : ℤ)
    from haddr]
  exact h.ham _

/-- The K = 1 segment value at length 0 equals the base engine's edge value
when the source score is finite. -/
lemma equiv_val (B : FBW) (S : SegFBW) (h : EquivInp B S) (t e : ℕ)
    (heB : e < B.nEdges) (htT : t < B.nFrames) (a : ℝ) :
    segVal S (FVal.fin a) (S.batchAt t (S.edgeSeq e)) e 0
      = edgeVal B (FVal.fin a) t e := by
  unfold segVal edgeVal
  rw [h.hseq e, h.hbi t (B.edgeSeq e) htT (h.hqr e heB), h.hemi e,
    equiv_am B S h t (B.edgeSeq e) (B.edgeEmission e)]
  rw [show S.lmAt (S.edgeLenMod e) 0 = 0 from h.hlm _, h.hw e, h.hscale]
  show FVal.fin (a + B.edgeWeight e
    + 1 * B.amAt t (B.edgeSeq e) (B.edgeEmission e) + 0)
    = FVal.fin (a + B.edgeWeight e + B.amAt t (B.edgeSeq e) (B.edgeEmission e))
  simp only [FVal.fin.injEq]
  ring

/-- Forward simulation: after `t` iterations the K = 1 ring slot `t % 2`
agrees with the base engine's forward state buffer at time `t`. -/
lemma C4_fwd_sim (B : FBW) (S : SegFBW) (h : EquivInp B S) :
    ∀ t, t ≤ B.nFrames → ∀ st, st < B.nStates →
      ringFwdAfter S t ((t % S.R) * S.nStates + st) = fwdState B t st := by
  have hR : S.R = 2 := by rw [SegFBW.R, h.hK]
  have hNS : S.nStates = B.nStates := h.hns
  intro t
  induction t with
  | zero =>
    intro _ st hst
    show setStartSeg S (fun _ => FVal.inf) ((0 % S.R) * S.nStates + st)
      = setStartStates B (fun _ => FVal.inf) st
    rw [Nat.zero_mod, Nat.zero_mul, Nat.zero_add]
    unfold setStartSeg setStartStates
    rw [h.hs]
    refine (foldl_rel
      (fun (rs bs : ℕ → FVal) => ∀ st2, st2 < B.nStates → rs st2 = bs st2)
      (fun bb q => Function.update bb (S.startState q) (FVal.fin 0))
      (setStartStep B) (List.range B.nSeqs)
      (fun _ => FVal.inf) (fun _ => FVal.inf) (fun _ _ => rfl) ?_) st hst
    intro rs bs q _ hrel2 st2 hst2
    show Function.update rs (S.startState q) (FVal.fin 0) st2
      = Function.update bs (B.startState q) (FVal.fin 0) st2
    rw [h.hss q]
    by_cases he : st2 = B.startState q
    · subst he; rw [Function.update_same, Function.update_same]
    · rw [Function.update_noteq he, Function.update_noteq he]
      exact hrel2 st2 hst2
  | succ t ih =>
    intro ht1 st hst
    have htT : t < B.nFrames := ht1
    have hclear : clearSlotFwd S t = (t + 1) % S.R := by
      rw [clearSlotFwd, hR]
      by_cases ht0 : t = 0
      · subst ht0; rw [if_pos rfl]; norm_num
      · rw [if_neg ht0]; omega
    have hslotne : (t + 1) % S.R ≠ t % S.R := by rw [hR]; omega
    have hms : S.maxSeg t = 1 := by
      rw [SegFBW.maxSeg, h.hK, h.hT]; omega
    show (List.foldl (segFwdStep S t)
        (fillSlot S (ringFwdAfter S t) (clearSlotFwd S t))
        (List.range S.nEdges)) (((t + 1) % S.R) * S.nStates + st)
      = fwdNextState B (fwdState B t) t st
    rw [h.hE]
    unfold fwdNextState
    refine (foldl_rel
      (fun (rs bs : ℕ → FVal) =>
        (∀ st2, st2 < B.nStates →
          rs (((t + 1) % S.R) * S.nStates + st2) = bs st2) ∧
        (∀ st2, st2 < B.nStates →
          rs ((t % S.R) * S.nStates + st2) = fwdState B t st2))
      (segFwdStep S t) (fwdStep B t (fwdState B t)) (List.range B.nEdges)
      (fillSlot S (ringFwdAfter S t) (clearSlotFwd S t)) (fun _ => FVal.inf)
      ⟨?_, ?_⟩ ?_).1 st hst
    · intro st2 hst2
      rw [hclear, fillSlot_at S _ _ _ _ (hNS ▸ hst2), if_pos rfl]
    · intro st2 hst2
      rw [hclear, fillSlot_at S _ _ _ _ (hNS ▸ hst2),
        if_neg (fun hc => hslotne hc.symm)]
      exact ih (Nat.le_of_lt htT) st2 hst2
    · intro rs bs e he hrel2
      have heB : e < B.nEdges := List.mem_range.mp he
      have hprev : rs ((t % S.R) * S.nStates + S.edgeFrom e)
          = fwdState B t (B.edgeFrom e) := by
        rw [h.hfrom e]
        exact hrel2.2 (B.edgeFrom e) (h.hfr e heB)
      have hbatch : S.batchAt t (S.edgeSeq e) ≠ -1 := by
        rw [h.hseq e, h.hbi t (B.edgeSeq e) htT (h.hqr e heB)]
        intro hc
        have h0 : (0 : ℤ) ≤ ((t * B.nSeqs + B.edgeSeq e : ℕ) : ℤ) :=
          Int.natCast_nonneg _
        omega
      by_cases hinf : (fwdState B t (B.edgeFrom e)).isInf = true
      · have hseg : segFwdStep S t rs e = rs := by
          simp only [segFwdStep]
          rw [hprev, if_pos hinf]
        have hbase : fwdStep B t (fwdState B t) bs e = bs := by
          unfold fwdStep
          rw [if_pos hinf]
        rw [hseg, hbase]
        exact hrel2
      · obtain ⟨a, ha⟩ := (fwdState_good B t (B.edgeFrom e)).fin_of_not_isInf
          (Bool.not_eq_true _ ▸ hinf)
        have haddr : ((t % S.R) + 1 + 0) % S.R = (t + 1) % S.R := by
          rw [hR]; omega
        have hseg : segFwdStep S t rs e
            = Function.update rs (((t + 1) % S.R) * S.nStates + B.edgeTo e)
                (prob_add (rs (((t + 1) % S.R) * S.nStates + B.edgeTo e))
                  (edgeVal B (fwdState B t (B.edgeFrom e)) t e)) := by
          simp only [segFwdStep]
          rw [hprev, if_neg hinf, if_neg hbatch, hms,
            show List.range 1 = [0] from rfl, List.foldl_cons, List.foldl_nil,
            haddr, h.hto e, ha, equiv_val B S h t e heB htT a]
        have hbase : fwdStep B t (fwdState B t) bs e
            = Function.update bs (B.edgeTo e)
                (prob_add (bs (B.edgeTo e))
                  (edgeVal B (fwdState B t (B.edgeFrom e)) t e)) := by
          unfold fwdStep
          rw [if_neg hinf]
        rw [hseg, hbase]
        constructor
        · intro st2 hst2
          by_cases hte : st2 = B.edgeTo e
          · subst hte
            rw [Function.update_same, Function.update_same,
              hrel2.1 _ (h.htr e heB)]
          · rw [Function.update_noteq
                (fun hc => hte (Nat.add_left_cancel hc)),
              Function.update_noteq hte]
            exact hrel2.1 st2 hst2
        · intro st2 hst2
          rw [Function.update_noteq (fun hc =>
            hslotne (((slot_addr_inj S.nStates _ _ _ _ (hNS ▸ hst2)
              (hNS ▸ h.htr e heB)).mp hc).1.symm))]
          exact hrel2.2 st2 hst2

lemma cell_lt (f q T ns : ℕ) (hf : f < T) (hq : q < ns) :
    f * ns + q < T * ns :=
  lt_of_lt_of_le (by rw [Nat.succ_mul]; omega : f * ns + q < (f + 1) * ns)
    (Nat.mul_le_mul_right _ hf)

/-- The fwd kernel's view of the read slot `t % R` equals the base forward
state buffer. -/
lemma C4_fwdKernel_at (B : FBW) (S : SegFBW) (h : EquivInp B S) (t st : ℕ)
    (htT : t < B.nFrames) (hst : st < B.nStates) :
    ringFwdKernel S t ((t % S.R) * S.nStates + st) = fwdState B t st := by
  have hR : S.R = 2 := by rw [SegFBW.R, h.hK]
  have hclear : clearSlotFwd S t = (t + 1) % S.R := by
    rw [clearSlotFwd, hR]
    by_cases ht0 : t = 0
    · subst ht0; rw [if_pos rfl]; norm_num
    · rw [if_neg ht0]; omega
  rw [ringFwdKernel, hclear, fillSlot_at S _ _ _ _ (h.hns ▸ hst),
    if_neg (by rw [hR]; omega)]
  exact C4_fwd_sim B S h t (Nat.le_of_lt htT) st hst

/-- The K = 1 segmental forward edge-buffer row equals the base engine's. -/
lemma C4_edgeFwd (B : FBW) (S : SegFBW) (h : EquivInp B S) (t e : ℕ)
    (htT : t < B.nFrames) (heB : e < B.nEdges) :
    segEdgeFwd S t 0 e = edgeFwdRow B t e := by
  have hms : S.maxSeg t = 1 := by rw [SegFBW.maxSeg, h.hK, h.hT]; omega
  have hbatch : S.batchAt t (S.edgeSeq e) ≠ -1 := by
    rw [h.hseq e, h.hbi t (B.edgeSeq e) htT (h.hqr e heB)]
    intro hc
    have h0 : (0 : ℤ) ≤ ((t * B.nSeqs + B.edgeSeq e : ℕ) : ℤ) :=
      Int.natCast_nonneg _
    omega
  have hprev : ringFwdKernel S t ((t % S.R) * S.nStates + S.edgeFrom e)
      = fwdState B t (B.edgeFrom e) := by
    rw [h.hfrom e]
    exact C4_fwdKernel_at B S h t (B.edgeFrom e) htT (h.hfr e heB)
  simp only [segEdgeFwd]
  rw [hprev]
  unfold edgeFwdRow
  by_cases hinf : (fwdState B t (B.edgeFrom e)).isInf = true
  · rw [if_pos hinf, if_pos hinf]
  · rw [if_neg hinf, if_neg hinf, if_neg hbatch,
      if_pos (show 0 < S.maxSeg t by omega)]
    obtain ⟨a, ha⟩ := (fwdState_good B t (B.edgeFrom e)).fin_of_not_isInf
      (Bool.not_eq_true _ ▸ hinf)
    rw [ha, equiv_val B S h t e heB htT a]
    show FVal.fin (a + B.edgeWeight e
        + B.amAt t (B.edgeSeq e) (B.edgeEmission e))
      = FVal.fin (0 + (a + B.edgeWeight e
        + B.amAt t (B.edgeSeq e) (B.edgeEmission e)))
    simp only [FVal.fin.injEq]
    ring

/-- The segmental backward-seeding condition is, under the out-of-bounds
hypothesis, exactly the base engine's last-live-frame condition. -/
lemma equiv_seed (B : FBW) (S : SegFBW) (h : EquivInp B S) (f q : ℕ)
    (hf : f < B.nFrames) (hq : q < B.nSeqs) :
    ((S.segIndexFlat (S.batchAt f q).toNat ≠ 0 ∧
        S.segIndexFlat ((S.batchAt f q).toNat + S.nBatches) = 0)
      ↔ isLastLive B f q) := by
  rw [h.hbi f q hf hq, Int.toNat_natCast]
  have hmask1 : B.maskAt f q = 1 :=
    h.hmask _ (cell_lt f q B.nFrames B.nSeqs hf hq)
  constructor
  · rintro ⟨_, h2⟩
    have hfT : f + 1 = B.nFrames := (h.hoob f q hf hq).mp h2
    exact ⟨hmask1, Or.inl (by omega)⟩
  · rintro ⟨_, hor⟩
    have hfT : f + 1 = B.nFrames := by
      rcases hor with h1 | h2
      · omega
      · by_contra hne
        have hlt : f + 1 < B.nFrames := by omega
        have hm2 : B.maskAt (f + 1) q = 1 :=
          h.hmask _ (cell_lt (f + 1) q B.nFrames B.nSeqs hlt hq)
        rw [hm2] at h2
        norm_num at h2
    refine ⟨h.hidx _ ?_, (h.hoob f q hf hq).mpr hfT⟩
    rw [h.hB]
    exact cell_lt f q B.nFrames B.nSeqs hf hq

open Classical in
/-- The segmental backward init at frame `f` (applied to the ring after
`n_frames - (f+1)` bwd iterations, with the next slot freshly filled) matches
the base engine's seeded backward score at time `f + 1`, and leaves the write
slot `f % R` at `+inf`. -/
lemma C4_bwd_init_step (B : FBW) (S : SegFBW) (h : EquivInp B S) (f : ℕ)
    (hf : f < B.nFrames)
    (hring : ∀ st, st < B.nStates →
      ringBwdAfter S (B.nFrames - (f + 1)) (((f + 1) % S.R) * S.nStates + st)
        = bwdAfter B (B.nFrames - (f + 1)) st) :
    (∀ st, st < B.nStates →
      segInitBwd S f
          (fillSlot S (ringBwdAfter S (B.nFrames - (f + 1))) (f % S.R))
          (((f + 1) % S.R) * S.nStates + st)
        = bwdScore B (f + 1) st) ∧
    (∀ st, st < B.nStates →
      segInitBwd S f
          (fillSlot S (ringBwdAfter S (B.nFrames - (f + 1))) (f % S.R))
          ((f % S.R) * S.nStates + st)
        = FVal.inf) := by
  have hR : S.R = 2 := by rw [SegFBW.R, h.hK]
  have hNS := h.hns
  have hslotne : (f + 1) % S.R ≠ f % S.R := by rw [hR]; omega
  have hrel := foldl_rel
    (fun (rs bs : ℕ → FVal) =>
      (∀ st, st < B.nStates →
        rs (((f + 1) % S.R) * S.nStates + st) = bs st) ∧
      (∀ st, st < B.nStates →
        rs ((f % S.R) * S.nStates + st) = FVal.inf))
    (segInitBwdStep S f) (initBwdStep B f) (List.range B.nSeqs)
    (fillSlot S (ringBwdAfter S (B.nFrames - (f + 1))) (f % S.R))
    (bwdAfter B (B.nFrames - (f + 1)))
    ⟨by
      intro st hst
      rw [fillSlot_at S _ _ _ _ (hNS ▸ hst), if_neg hslotne]
      exact hring st hst,
     by
      intro st hst
      rw [fillSlot_at S _ _ _ _ (hNS ▸ hst), if_pos rfl]⟩
    (by
      intro rs bs q hqmem hrel2
      have hq : q < B.nSeqs := List.mem_range.mp hqmem
      have hnneg : ¬(S.batchAt f q < 0) := by
        rw [h.hbi f q hf hq]
        exact not_lt.mpr (Int.natCast_nonneg _)
      have hseg : segInitBwdStep S f rs q
          = if isLastLive B f q then
              Function.update rs ((f + 1) % S.R * S.nStates + B.endState q)
                (FVal.fin 0)
            else rs := by
        simp only [segInitBwdStep]
        rw [if_neg hnneg, h.hes q]
        by_cases hlast : isLastLive B f q
        · rw [if_pos ((equiv_seed B S h f q hf hq).mpr hlast), if_pos hlast]
        · rw [if_neg (fun hc => hlast ((equiv_seed B S h f q hf hq).mp hc)),
            if_neg hlast]
      have hbase : initBwdStep B f bs q
          = if isLastLive B f q then
              Function.update bs (B.endState q) (FVal.fin 0)
            else bs := rfl
      rw [hseg, hbase]
      by_cases hlast : isLastLive B f q
      · rw [if_pos hlast, if_pos hlast]
        constructor
        · intro st hst
          by_cases hte : st = B.endState q
          · subst hte; rw [Function.update_same, Function.update_same]
          · rw [Function.update_noteq (fun hc => hte (Nat.add_left_cancel hc)),
              Function.update_noteq hte]
            exact hrel2.1 st hst
        · intro st hst
          rw [Function.update_noteq (fun hc =>
            hslotne (((slot_addr_inj S.nStates _ _ _ _ (hNS ▸ hst)
              (hNS ▸ h.hesr q hq)).mp hc).1.symm))]
          exact hrel2.2 st hst
      · rw [if_neg hlast, if_neg hlast]
        exact hrel2)
  constructor
  · intro st hst
    show List.foldl (segInitBwdStep S f)
      (fillSlot S (ringBwdAfter S (B.nFrames - (f + 1))) (f % S.R))
      (List.range S.nSeqs) (((f + 1) % S.R) * S.nStates + st) = _
    rw [h.hs]
    exact hrel.1 st hst
  · intro st hst
    show List.foldl (segInitBwdStep S f)
      (fillSlot S (ringBwdAfter S (B.nFrames - (f + 1))) (f % S.R))
      (List.range S.nSeqs) ((f % S.R) * S.nStates + st) = _
    rw [h.hs]
    exact hrel.2 st hst

/-- Two folds over the same list agree when the step functions agree on the
list's elements. -/
lemma foldl_congr_mem {α β : Type} (f g : α → β → α) (l : List β) (a : α)
    (h : ∀ x c, c ∈ l → f x c = g x c) :
    List.foldl f a l = List.foldl g a l := by
  induction l generalizing a with
  | nil => rfl
  | cons c l ih =>
    rw [List.foldl_cons, List.foldl_cons, h a c (by simp)]
    exact ih (g a c) (fun x d hd => h x d (by simp [hd]))

/-- A fold whose every step fixes the accumulator is the identity. -/
lemma foldl_id_of {α β : Type} (f : α → β → α) (l : List β)
    (h : ∀ x c, c ∈ l → f x c = x) (a : α) : List.foldl f a l = a := by
  induction l with
  | nil => rfl
  | cons c l ih =>
    rw [List.foldl_cons, h a c (by simp)]
    exact ih (fun x d hd => h x d (by simp [hd]))

/-- Backward simulation: after `j` iterations of the segmental bwd pass the
K = 1 ring slot `(n_frames - j) % 2` agrees with the base engine's backward
state buffer after `j` iterations. -/
lemma C4_bwd_sim (B : FBW) (S : SegFBW) (h : EquivInp B S) :
    ∀ j, j ≤ B.nFrames → ∀ st, st < B.nStates →
      ringBwdAfter S j (((B.nFrames - j) % S.R) * S.nStates + st)
        = bwdAfter B j st := by
  have hR : S.R = 2 := by rw [SegFBW.R, h.hK]
  have hNS := h.hns
  intro j
  induction j with
  | zero => intro _ st _; rfl
  | succ j ih =>
    intro hj1 st hst
    have hjT : j < B.nFrames := hj1
    have hf : B.nFrames - j - 1 < B.nFrames := by omega
    have hjrw : B.nFrames - (B.nFrames - j - 1 + 1) = j := by omega
    have hfrw : B.nFrames - j - 1 + 1 = B.nFrames - j := by omega
    have hring : ∀ st2, st2 < B.nStates →
        ringBwdAfter S (B.nFrames - (B.nFrames - j - 1 + 1))
            (((B.nFrames - j - 1 + 1) % S.R) * S.nStates + st2)
          = bwdAfter B (B.nFrames - (B.nFrames - j - 1 + 1)) st2 := by
      intro st2 hst2
      rw [hjrw, hfrw]
      exact ih (Nat.le_of_lt hjT) st2 hst2
    have hinit := C4_bwd_init_step B S h (B.nFrames - j - 1) hf hring
    rw [hjrw] at hinit
    have hscore : ∀ st2, bwdScore B (B.nFrames - j - 1 + 1) st2
        = initBwd B (B.nFrames - j - 1) (bwdAfter B j) st2 := by
      intro st2
      show initBwd B (B.nFrames - j - 1 + 1 - 1)
          (bwdAfter B (B.nFrames - (B.nFrames - j - 1 + 1))) st2 = _
      rw [hjrw, Nat.succ_sub_one]
    have hgoal : ringBwdAfter S (j + 1)
        = (List.range S.nEdges).foldl (segBwdStep S (B.nFrames - j - 1))
            (segInitBwd S (B.nFrames - j - 1)
              (fillSlot S (ringBwdAfter S j) ((B.nFrames - j - 1) % S.R))) := by
      show (List.range S.nEdges).foldl (segBwdStep S (S.nTotFrames - j - 1))
          (segInitBwd S (S.nTotFrames - j - 1)
            (fillSlot S (ringBwdAfter S j) ((S.nTotFrames - j - 1) % S.R))) = _
      rw [h.hT]
    rw [hgoal, h.hE]
    show (List.range B.nEdges).foldl (segBwdStep S (B.nFrames - j - 1))
        (segInitBwd S (B.nFrames - j - 1)
          (fillSlot S (ringBwdAfter S j) ((B.nFrames - j - 1) % S.R)))
        (((B.nFrames - j - 1) % S.R) * S.nStates + st)
      = (List.range B.nEdges).foldl
          (bwdStep B (B.nFrames - j - 1)
            (initBwd B (B.nFrames - j - 1) (bwdAfter B j)))
          (fun _ => FVal.inf) st
    have hslotne : (B.nFrames - j - 1 + 1) % S.R
        ≠ (B.nFrames - j - 1) % S.R := by
      rw [hR]; omega
    have hGoodPrev : ∀ st2,
        Good (initBwd B (B.nFrames - j - 1) (bwdAfter B j) st2) :=
      initBwd_good B (B.nFrames - j - 1) (bwdAfter_good B j)
    refine (foldl_rel
      (fun (rs bs : ℕ → FVal) =>
        ((∀ st2, st2 < B.nStates →
            rs (((B.nFrames - j - 1) % S.R) * S.nStates + st2) = bs st2) ∧
          (∀ st2, st2 < B.nStates →
            rs (((B.nFrames - j - 1 + 1) % S.R) * S.nStates + st2)
              = initBwd B (B.nFrames - j - 1) (bwdAfter B j) st2)) ∧
        (∀ st2, Good (bs st2)))
      (segBwdStep S (B.nFrames - j - 1))
      (bwdStep B (B.nFrames - j - 1)
        (initBwd B (B.nFrames - j - 1) (bwdAfter B j)))
      (List.range B.nEdges)
      (segInitBwd S (B.nFrames - j - 1)
        (fillSlot S (ringBwdAfter S j) ((B.nFrames - j - 1) % S.R)))
      (fun _ => FVal.inf)
      ⟨⟨fun st2 hst2 => hinit.2 st2 hst2,
        fun st2 hst2 => (hinit.1 st2 hst2).trans (hscore st2)⟩,
        fun _ => good_inf⟩
      ?_).1.1 st hst
    intro rs bs e he hrel2
    have heB : e < B.nEdges := List.mem_range.mp he
    have hms : S.maxSeg (B.nFrames - j - 1) = 1 := by
      rw [SegFBW.maxSeg, h.hK, h.hT]; omega
    have hbatch : S.batchAt (B.nFrames - j - 1) (S.edgeSeq e) ≠ -1 := by
      rw [h.hseq e, h.hbi (B.nFrames - j - 1) (B.edgeSeq e) hf (h.hqr e heB)]
      intro hc
      have h0 : (0 : ℤ)
          ≤ (((B.nFrames - j - 1) * B.nSeqs + B.edgeSeq e : ℕ) : ℤ) :=
        Int.natCast_nonneg _
      omega
    have haddr : ((B.nFrames - j - 1) % S.R + 0 + 1) % S.R
        = (B.nFrames - j - 1 + 1) % S.R := by
      rw [hR]; omega
    by_cases hinf : (initBwd B (B.nFrames - j - 1) (bwdAfter B j)
        (B.edgeTo e)).isInf = true
    · have hseg : segBwdStep S (B.nFrames - j - 1) rs e = rs := by
        simp only [segBwdStep]
        rw [if_neg hbatch, hms, show List.range 1 = [0] from rfl,
          List.foldl_cons, List.foldl_nil, haddr, h.hto e,
          hrel2.1.2 (B.edgeTo e) (h.htr e heB), if_pos hinf]
        have hnan : (rs (((B.nFrames - j - 1) % S.R) * S.nStates
            + S.edgeFrom e)).isNan = false := by
          rw [h.hfrom e, hrel2.1.1 (B.edgeFrom e) (h.hfr e heB)]
          exact (hrel2.2 (B.edgeFrom e)).not_nan
        rw [prob_add_inf_right _ hnan, Function.update_eq_self]
      have hbase : bwdStep B (B.nFrames - j - 1)
          (initBwd B (B.nFrames - j - 1) (bwdAfter B j)) bs e = bs := by
        unfold bwdStep
        rw [if_pos hinf]
      rw [hseg, hbase]
      exact hrel2
    · obtain ⟨a, ha⟩ := (hGoodPrev (B.edgeTo e)).fin_of_not_isInf
        (Bool.not_eq_true _ ▸ hinf)
      have hev : Good (edgeVal B (FVal.fin a) (B.nFrames - j - 1) e) :=
        good_fin _
      have hseg : segBwdStep S (B.nFrames - j - 1) rs e
          = Function.update rs
              (((B.nFrames - j - 1) % S.R) * S.nStates + B.edgeFrom e)
              (prob_add
                (rs (((B.nFrames - j - 1) % S.R) * S.nStates + B.edgeFrom e))
                (edgeVal B (FVal.fin a) (B.nFrames - j - 1) e)) := by
        simp only [segBwdStep]
        rw [if_neg hbatch, hms, show List.range 1 = [0] from rfl,
          List.foldl_cons, List.foldl_nil, haddr, h.hto e,
          hrel2.1.2 (B.edgeTo e) (h.htr e heB), ha,
          if_neg (show ¬((FVal.fin a).isInf = true) from by
            simp [FVal.isInf]),
          equiv_val B S h (B.nFrames - j - 1) e heB hf a,
          prob_add_inf_left _ hev.not_nan, h.hfrom e]
      have hbase : bwdStep B (B.nFrames - j - 1)
          (initBwd B (B.nFrames - j - 1) (bwdAfter B j)) bs e
          = Function.update bs (B.edgeFrom e)
              (prob_add (bs (B.edgeFrom e))
                (edgeVal B (FVal.fin a) (B.nFrames - j - 1) e)) := by
        unfold bwdStep
        rw [if_neg hinf, ha]
      rw [hseg, hbase]
      refine ⟨⟨?_, ?_⟩, ?_⟩
      · intro st2 hst2
        by_cases hte : st2 = B.edgeFrom e
        · subst hte
          rw [Function.update_same, Function.update_same,
            hrel2.1.1 _ (h.hfr e heB)]
        · rw [Function.update_noteq
              (fun hc => hte (Nat.add_left_cancel hc)),
            Function.update_noteq hte]
          exact hrel2.1.1 st2 hst2
      · intro st2 hst2
        rw [Function.update_noteq (fun hc =>
          hslotne (((slot_addr_inj S.nStates _ _ _ _ (hNS ▸ hst2)
            (hNS ▸ h.hfr e heB)).mp hc).1))]
        exact hrel2.1.2 st2 hst2
      · exact good_update hrel2.2
          (prob_add_good (hrel2.2 (B.edgeFrom e)) hev).1 _

/-- The bwd kernel's view of the read slot `(f + 1) % R` equals the base
backward score at time `f + 1`. -/
lemma C4_bwdKernel_at (B : FBW) (S : SegFBW) (h : EquivInp B S) (f st : ℕ)
    (hf : f < B.nFrames) (hst : st < B.nStates) :
    ringBwdKernel S f (((f + 1) % S.R) * S.nStates + st)
      = bwdScore B (f + 1) st := by
  have hgoal : ringBwdKernel S f
      = segInitBwd S f
          (fillSlot S (ringBwdAfter S (B.nFrames - (f + 1))) (f % S.R)) := by
    show segInitBwd S f
        (fillSlot S (ringBwdAfter S (S.nTotFrames - (f + 1))) (f % S.R)) = _
    rw [h.hT]
  rw [hgoal]
  refine (C4_bwd_init_step B S h f hf ?_).1 st hst
  intro st2 hst2
  have hsim := C4_bwd_sim B S h (B.nFrames - (f + 1)) (by omega) st2 hst2
  rw [show B.nFrames - (B.nFrames - (f + 1)) = f + 1 from by omega] at hsim
  exact hsim

/-- The K = 1 segmental edge buffer after both sweeps equals the base
engine's. -/
lemma C4_edgeFinal (B : FBW) (S : SegFBW) (h : EquivInp B S) (f e : ℕ)
    (hf : f < B.nFrames) (heB : e < B.nEdges) :
    segEdgeFinal S f 0 e = finalEdge B f e := by
  have hR : S.R = 2 := by rw [SegFBW.R, h.hK]
  have hms : S.maxSeg f = 1 := by rw [SegFBW.maxSeg, h.hK, h.hT]; omega
  have hbatch : S.batchAt f (S.edgeSeq e) ≠ -1 := by
    rw [h.hseq e, h.hbi f (B.edgeSeq e) hf (h.hqr e heB)]
    intro hc
    have h0 : (0 : ℤ) ≤ ((f * B.nSeqs + B.edgeSeq e : ℕ) : ℤ) :=
      Int.natCast_nonneg _
    omega
  have haddr : ((f % S.R) + 0 + 1) % S.R = (f + 1) % S.R := by
    rw [hR]; omega
  have hpv : ringBwdKernel S f
      (((f % S.R) + 0 + 1) % S.R * S.nStates + S.edgeTo e)
      = bwdScore B (f + 1) (B.edgeTo e) := by
    rw [haddr, h.hto e]
    exact C4_bwdKernel_at B S h f (B.edgeTo e) hf (h.htr e heB)
  simp only [segEdgeFinal]
  rw [if_neg hbatch, if_pos (show 0 < S.maxSeg f by omega), hpv,
    C4_edgeFwd B S h f e hf heB]
  unfold finalEdge
  rfl

/-- The K = 1 segmental per-frame log-sum-exp accumulator equals the base
engine's. -/
lemma C4_frameSum (B : FBW) (S : SegFBW) (h : EquivInp B S) (f s : ℕ)
    (hf : f < B.nFrames) :
    segFrameSum S f 0 s = frameSum B f s := by
  rw [segFrameSum, frameSum, h.hE]
  refine foldl_congr_mem _ _ _ _ ?_
  intro acc e he
  have heB : e < B.nEdges := List.mem_range.mp he
  rw [h.hseq e, C4_edgeFinal B S h f e hf heB]

open Classical in
/-- One K = 1 `compute_framewise_sum` thread writes exactly its own frame's
clamped sums and leaves every other frame's cells untouched. -/
lemma C4_normThread_at (B : FBW) (S : SegFBW) (h : EquivInp B S)
    (t' t s : ℕ) (ht' : t' < B.nFrames) (ht : t < B.nFrames)
    (hs : s < B.nSeqs) (buf : ℕ → FVal) :
    segNormThread S t' 0 buf (t * B.nSeqs + s)
      = if t' = t then sumOut B t s else buf (t * B.nSeqs + s) := by
  by_cases htt : t' = t
  · subst htt
    rw [if_pos rfl]
    simp only [segNormThread]
    rw [h.hs]
    refine foldl_buf_write _ (List.range B.nSeqs) (t' * B.nSeqs + s)
      (sumOut B t' s) ?_ s (List.mem_range.mpr hs) ?_ buf
    · intro bb q hq
      have hq' : q < B.nSeqs := List.mem_range.mp hq
      rw [if_pos (show (0 : ℤ) ≤ S.batchAt t' q from by
          rw [h.hbi t' q ht' hq']; exact Int.natCast_nonneg _),
        h.hbi t' q ht' hq', Int.toNat_natCast, Nat.zero_mul, Nat.zero_add]
      by_cases hqs : q = s
      · subst hqs
        right
        rw [Function.update_same, C4_frameSum B S h t' q ht']
        have hidx2 : S.segIndexFlat (t' * B.nSeqs + q) ≠ 0 :=
          h.hidx _ (by
            rw [h.hB]; exact cell_lt t' q B.nFrames B.nSeqs ht' hq')
        by_cases hfin : (frameSum B t' q).isInf = true
        · rw [if_pos (Or.inl hfin), sumOut, if_pos hfin]
        · rw [if_neg (by rintro (hc | hc); exacts [hfin hc, hidx2 hc]),
            sumOut, if_neg hfin]
      · left
        rw [Function.update_noteq
          (fun hc => hqs (Nat.add_left_cancel hc).symm)]
    · intro bb
      rw [if_pos (show (0 : ℤ) ≤ S.batchAt t' s from by
          rw [h.hbi t' s ht' hs]; exact Int.natCast_nonneg _),
        h.hbi t' s ht' hs, Int.toNat_natCast, Nat.zero_mul, Nat.zero_add,
        Function.update_same, C4_frameSum B S h t' s ht']
      have hidx2 : S.segIndexFlat (t' * B.nSeqs + s) ≠ 0 :=
        h.hidx _ (by
          rw [h.hB]; exact cell_lt t' s B.nFrames B.nSeqs ht' hs)
      by_cases hfin : (frameSum B t' s).isInf = true
      · rw [if_pos (Or.inl hfin), sumOut, if_pos hfin]
      · rw [if_neg (by rintro (hc | hc); exacts [hfin hc, hidx2 hc]),
          sumOut, if_neg hfin]
  · rw [if_neg htt]
    simp only [segNormThread]
    rw [h.hs]
    refine foldl_buf_untouched _ (List.range B.nSeqs) (t * B.nSeqs + s) ?_ buf
    intro bb q hq
    have hq' : q < B.nSeqs := List.mem_range.mp hq
    rw [if_pos (show (0 : ℤ) ≤ S.batchAt t' q from by
        rw [h.hbi t' q ht' hq']; exact Int.natCast_nonneg _),
      h.hbi t' q ht' hq', Int.toNat_natCast, Nat.zero_mul, Nat.zero_add,
      Function.update_noteq (fun hc =>
        htt ((slot_addr_inj B.nSeqs t t' s q hs hq').mp hc).1.symm)]

/-- The K = 1 segmental normalization factors equal the base engine's clamped
per-frame sums. -/
lemma C4_norm (B : FBW) (S : SegFBW) (h : EquivInp B S) (t s : ℕ)
    (ht : t < B.nFrames) (hs : s < B.nSeqs) :
    segNorm S (t * B.nSeqs + s) = sumOut B t s := by
  rw [segNorm,
    show S.nTotFrames * S.nSegFrames = B.nFrames from by
      rw [h.hT, h.hK, mul_one]]
  rw [foldl_congr_mem
    (fun (buf : ℕ → FVal) idx =>
      segNormThread S (idx / S.nSegFrames) (idx % S.nSegFrames) buf)
    (fun (buf : ℕ → FVal) idx => segNormThread S idx 0 buf)
    (List.range B.nFrames) (fun _ => FVal.fin 0)
    (fun buf idx hidx => by
      rw [h.hK]
      show segNormThread S (idx / 1) (idx % 1) buf
        = segNormThread S idx 0 buf
      rw [Nat.div_one, Nat.mod_one])]
  refine foldl_buf_write _ (List.range B.nFrames) (t * B.nSeqs + s)
    (sumOut B t s) ?_ t (List.mem_range.mpr ht) ?_ (fun _ => FVal.fin 0)
  · intro bb t' ht'mem
    have ht' : t' < B.nFrames := List.mem_range.mp ht'mem
    rw [C4_normThread_at B S h t' t s ht' ht hs bb]
    by_cases htt : t' = t
    · right; rw [if_pos htt]
    · left; rw [if_neg htt]
  · intro bb
    rw [C4_normThread_at B S h t t s ht ht hs bb, if_pos rfl]

/-- A fold over `List.range (T * E)` whose steps fix the accumulator outside
the thread block `[t * E, (t + 1) * E)` collapses to the fold over that
block. -/
lemma foldl_block {α : Type} (f : α → ℕ → α) (T E t : ℕ) (ht : t < T)
    (hE : 0 < E)
    (hskip : ∀ acc idx, idx < T * E → idx / E ≠ t → f acc idx = acc)
    (a : α) :
    List.foldl f a (List.range (T * E))
      = List.foldl (fun acc e => f acc (t * E + e)) a (List.range E) := by
  have hsplit : T * E = t * E + (E + (T - t - 1) * E) := by
    conv_lhs => rw [show T = t + (1 + (T - t - 1)) from by omega]
    ring
  have hmulsucc : (t + 1) * E = t * E + E := by ring
  have hpre : ∀ (x : α) (c : ℕ), c ∈ List.range (t * E) → f x c = x := by
    intro x c hc
    have hcE : c < t * E := List.mem_range.mp hc
    have hdiv : c / E < t := (Nat.div_lt_iff_lt_mul hE).mpr hcE
    exact hskip x c (lt_of_lt_of_le hcE (by rw [hsplit]; omega)) (by omega)
  have hpost : ∀ (x : α) (c : ℕ),
      c ∈ List.map (fun k => E + k) (List.range ((T - t - 1) * E)) →
        f x (t * E + c) = x := by
    intro x c hc
    obtain ⟨k, hk, hkc⟩ := List.mem_map.mp hc
    have hkr : k < (T - t - 1) * E := List.mem_range.mp hk
    have hcv : c = E + k := hkc.symm
    have hlt : t * E + c < T * E := by rw [hsplit]; omega
    have hge : t + 1 ≤ (t * E + c) / E := by
      rw [Nat.le_div_iff_mul_le hE]
      omega
    exact hskip x (t * E + c) hlt (by omega)
  rw [hsplit, List.range_add, List.foldl_append, foldl_id_of f _ hpre a,
    List.foldl_map, List.range_add, List.foldl_append,
    foldl_id_of _ _ hpost]

open Classical in
/-- The K = 1 segmental `compute_targets` output cell equals the base
engine's output cell. -/
lemma C4_output (B : FBW) (S : SegFBW) (h : EquivInp B S) (t s em : ℕ)
    (ht : t < B.nFrames) (hs : s < B.nSeqs) (hem : em < B.nEmissions) :
    segOutputAt S ((t * B.nSeqs + s) * B.nEmissions + em)
      = output B t s em := by
  rcases Nat.eq_zero_or_pos B.nEdges with hE0 | hE0
  · rw [segOutputAt,
      show S.nTotFrames * S.nSegFrames * S.nEdges = 0 from by
        rw [h.hE, hE0, Nat.mul_zero],
      output, hE0]
    rfl
  have hskip : ∀ (acc : FVal) (idx : ℕ), idx < B.nFrames * B.nEdges →
      idx / B.nEdges ≠ t →
      segTargetStep S ((t * B.nSeqs + s) * B.nEmissions + em) acc idx
        = acc := by
    intro acc idx hidxlt hne
    have htlt : idx / B.nEdges < B.nFrames :=
      (Nat.div_lt_iff_lt_mul hE0).mpr hidxlt
    have helt : idx % B.nEdges < B.nEdges := Nat.mod_lt _ hE0
    simp only [segTargetStep]
    split
    next hcond =>
      exfalso
      obtain ⟨h1, h2, h3⟩ := hcond
      rw [h.hK, Nat.mod_one, Nat.mul_one] at h3
      simp only [Nat.zero_mul, Nat.zero_add] at h3
      rw [h.hE, h.hEm, h.hseq (idx % B.nEdges), h.hemi (idx % B.nEdges),
        h.hbi (idx / B.nEdges) (B.edgeSeq (idx % B.nEdges)) htlt
          (h.hqr (idx % B.nEdges) helt),
        Int.toNat_natCast] at h3
      have hinner := (slot_addr_inj B.nEmissions _ _ _ _
        (h.hemr (idx % B.nEdges) helt) hem).mp h3
      have houter := (slot_addr_inj B.nSeqs _ _ _ _
        (h.hqr (idx % B.nEdges) helt) hs).mp hinner.1
      exact hne houter.1
    next => rfl
  rw [segOutputAt,
    show S.nTotFrames * S.nSegFrames * S.nEdges = B.nFrames * B.nEdges from by
      rw [h.hT, h.hK, h.hE, Nat.mul_one],
    foldl_block (segTargetStep S ((t * B.nSeqs + s) * B.nEmissions + em))
      B.nFrames B.nEdges t ht hE0 hskip FVal.inf]
  have hstep : ∀ (acc : FVal) (e : ℕ), e < B.nEdges →
      segTargetStep S ((t * B.nSeqs + s) * B.nEmissions + em) acc
        (t * B.nEdges + e)
      = if B.edgeSeq e = s ∧ B.edgeEmission e = em then
          prob_add acc (fsub (finalEdge B t e) (sumOut B t s))
        else acc := by
    intro acc e heB
    have hmod : (t * B.nEdges + e) % S.nEdges = e := by
      rw [h.hE, Nat.mul_comm t, Nat.mul_add_mod, Nat.mod_eq_of_lt heB]
    have hdiv : (t * B.nEdges + e) / (S.nEdges * S.nSegFrames) = t := by
      rw [h.hE, h.hK, Nat.mul_one, Nat.mul_comm t, Nat.mul_add_div hE0,
        Nat.div_eq_of_lt heB, Nat.add_zero]
    have hsl : ((t * B.nEdges + e) / S.nEdges) % S.nSegFrames = 0 := by
      rw [h.hK, Nat.mod_one]
    simp only [segTargetStep]
    rw [hmod, hdiv, hsl]
    simp only [Nat.zero_mul, Nat.zero_add]
    rw [h.hEm, h.hseq e, h.hemi e,
      h.hbi t (B.edgeSeq e) ht (h.hqr e heB), Int.toNat_natCast]
    by_cases hgrd : B.edgeSeq e = s ∧ B.edgeEmission e = em
    · have hcseg : (0 : ℤ) ≤ ((t * B.nSeqs + B.edgeSeq e : ℕ) : ℤ) ∧
          S.segIndexFlat (t * B.nSeqs + B.edgeSeq e) ≠ 0 ∧
          (t * B.nSeqs + B.edgeSeq e) * B.nEmissions + B.edgeEmission e
            = (t * B.nSeqs + s) * B.nEmissions + em := by
        refine ⟨Int.natCast_nonneg _, ?_, ?_⟩
        · exact h.hidx _ (by
            rw [h.hB]
            exact cell_lt t (B.edgeSeq e) B.nFrames B.nSeqs ht
              (h.hqr e heB))
        · rw [hgrd.1, hgrd.2]
      rw [if_pos hcseg, if_pos hgrd,
        C4_edgeFinal B S h t e ht heB,
        C4_norm B S h t (B.edgeSeq e) ht (h.hqr e heB), hgrd.1]
    · have hcseg : ¬((0 : ℤ) ≤ ((t * B.nSeqs + B.edgeSeq e : ℕ) : ℤ) ∧
          S.segIndexFlat (t * B.nSeqs + B.edgeSeq e) ≠ 0 ∧
          (t * B.nSeqs + B.edgeSeq e) * B.nEmissions + B.edgeEmission e
            = (t * B.nSeqs + s) * B.nEmissions + em) := by
        rintro ⟨h1, h2, h3⟩
        have hinner := (slot_addr_inj B.nEmissions _ _ _ _
          (h.hemr e heB) hem).mp h3
        exact hgrd ⟨Nat.add_left_cancel hinner.1, hinner.2⟩
      rw [if_neg hcseg, if_neg hgrd]
  by_cases hisInf : (frameSum B t s).isInf = true
  · have hsumeq : frameSum B t s = FVal.inf :=
      (frameSum_good B t s).isInf_iff.mp hisInf
    have hL : List.foldl (fun acc e =>
        segTargetStep S ((t * B.nSeqs + s) * B.nEmissions + em) acc
          (t * B.nEdges + e)) FVal.inf (List.range B.nEdges)
          = FVal.inf := by
      refine foldl_preserve (fun acc : FVal => acc = FVal.inf) _ _ _ rfl ?_
      intro acc e he hacc
      subst hacc
      rw [hstep FVal.inf e (List.mem_range.mp he)]
      by_cases hgrd : B.edgeSeq e = s ∧ B.edgeEmission e = em
      · rw [if_pos hgrd,
          finalEdge_inf_of_frameSum_inf B t s e hsumeq
            (List.mem_range.mp he) hgrd.1,
          sumOut, if_pos hisInf]
        rfl
      · rw [if_neg hgrd]
    have hR : output B t s em = FVal.inf := by
      rw [output]
      refine foldl_preserve (fun acc : FVal => acc = FVal.inf) _ _ _ rfl ?_
      intro acc e he hacc
      subst hacc
      by_cases hgrd : B.edgeSeq e = s ∧ B.edgeEmission e = em
      · rw [if_pos hgrd, normBuffer,
          finalEdge_inf_of_frameSum_inf B t s e hsumeq
            (List.mem_range.mp he) hgrd.1,
          hgrd.1, hsumeq]
        rfl
      · rw [if_neg hgrd]
    rw [hL, hR]
  · rw [output]
    refine foldl_congr_mem _ _ (List.range B.nEdges) FVal.inf ?_
    intro acc e he
    have heB := List.mem_range.mp he
    rw [hstep acc e heB]
    by_cases hgrd : B.edgeSeq e = s ∧ B.edgeEmission e = em
    · rw [if_pos hgrd, if_pos hgrd, sumOut, if_neg hisInf, normBuffer,
        hgrd.1]
    · rw [if_neg hgrd, if_neg hgrd]

/-- A K = 1 segmental twin of the base input `exC1`: identity batch indexing,
valid in-range index cells, and a zero in the word just past the end of the
index tensor (the word the segmental backward init reads out of bounds when
`n_seg_frames = 1`). -/
noncomputable def exC4S : SegFBW :=
  { exC7 with
    batchFlat := fun _ => 0
    segIndexFlat := fun a => if a = 0 then 1 else 0 }

lemma exC4S_equiv : EquivInp exC1 exC4S where
  hK := rfl
  hT := rfl
  hs := rfl
  hE := rfl
  hEm := rfl
  hB := rfl
  hns := rfl
  hfrom := fun _ => rfl
  hto := fun _ => rfl
  hemi := fun _ => rfl
  hseq := fun _ => rfl
  hw := fun _ => rfl
  hss := fun _ => rfl
  hes := fun _ => rfl
  hssr := fun _ _ => by show (0 : ℕ) < 2; decide
  hesr := fun _ _ => by show (1 : ℕ) < 2; decide
  hfr := fun _ _ => by show (0 : ℕ) < 2; decide
  htr := fun _ _ => by show (1 : ℕ) < 2; decide
  hqr := fun _ _ => by show (0 : ℕ) < 1; decide
  hemr := fun _ _ => by show (0 : ℕ) < 1; decide
  ham := fun _ => rfl
  hbi := fun t q ht hq => by
    have ht1 : t < 1 := ht
    have hq1 : q < 1 := hq
    have h1 : t = 0 := by omega
    have h2 : q = 0 := by omega
    subst h1
    subst h2
    decide
  hscale := rfl
  hlm := fun _ => rfl
  hmask := fun _ _ => rfl
  hidx := fun a ha => by
    have ha1 : a < 1 := ha
    have h1 : a = 0 := by omega
    subst h1
    show (if (0 : ℕ) = 0 then (1 : ℝ) else 0) ≠ 0
    rw [if_pos rfl]
    norm_num
  hoob := fun t q ht hq => by
    have ht1 : t < 1 := ht
    have hq1 : q < 1 := hq
    have h1 : t = 0 := by omega
    have h2 : q = 0 := by omega
    subst h1
    subst h2
    constructor
    · intro _
      rfl
    · intro _
      show (if (0 * exC1.nSeqs + 0 + exC4S.nBatches : ℕ) = 0 then (1 : ℝ)
        else 0) = 0
      rw [if_neg (by decide)]
  hT0 := Nat.one_pos
  hs0 := Nat.one_pos

/-- C4 (amended): with K = 1 and equivalent inputs — the same transition
graph, weights and am scores, am score scale 1, zero length-model scores,
identity batch indexing, every in-range index cell valid, and the word the
segmental `init_bwd_state_buffer` reads out of bounds (one stride past the
end of the `(1, n_batches)` index tensor) reading as zero exactly for
last-frame threads — the segmental engine produces exactly the base
(non-segmental) engine's output tensor and normalization factors at every
(time, sequence, emission) cell. -/
theorem C4_amended_k1_refinement (B : FBW) (S : SegFBW) (h : EquivInp B S)
    (t s em : ℕ) (ht : t < B.nFrames) (hs : s < B.nSeqs)
    (hem : em < B.nEmissions) :
    segOutputAt S ((t * B.nSeqs + s) * B.nEmissions + em)
        = output B t s em ∧
      segNorm S (t * B.nSeqs + s) = sumOut B t s :=
  ⟨C4_output B S h t s em ht hs hem, C4_norm B S h t s ht hs⟩

theorem C4_witness :
    EquivInp exC1 exC4S ∧ 0 < exC1.nFrames ∧ 0 < exC1.nSeqs ∧
      0 < exC1.nEmissions ∧
      (segOutputAt exC4S ((0 * exC1.nSeqs + 0) * exC1.nEmissions + 0)
          = output exC1 0 0 0 ∧
        segNorm exC4S (0 * exC1.nSeqs + 0) = sumOut exC1 0 0) :=
  ⟨exC4S_equiv, Nat.one_pos, Nat.one_pos, Nat.one_pos,
    C4_amended_k1_refinement exC1 exC4S exC4S_equiv 0 0 0 Nat.one_pos
      Nat.one_pos Nat.one_pos⟩
